import Mathlib

/-!
The RAMcheck pattern checker of bitflip

A shallow embedding of `src/bitflip.cpp`.

* `check_t` is `unsigned char`; a byte is a `Nat` (the table entries are below 256).
* `size_t` offsets are `Nat`.  A `std::vector<unsigned char>` holds fewer than `2^63`
  elements, so no offset computed by `fill` or `check_chunk` wraps; the one place where
  the width matters is the conversion of `mb*CHECK_PER_MB` from `long` to `size_t` in the
  constructor, which is taken modulo `2^64`.
* `buffer[b]` and `pattern[i]` are unchecked accesses in C++; here they are `read` and
  `write`, which fail with `Fault.out_of_bounds` outside the array.
* What a call does that can be observed is a list of `Event`s: the `memcmp` calls it makes
  and the lines it prints on `stderr` (the copy of a mismatch line that goes to
  `error_log`, when that file is open, is the same line and is not listed twice).
* A `for` loop is a recursion on a budget that is the distance of the loop variable
  from its bound; a loop that would still run with the budget used up is
  `Fault.fuel`, so an `.ok` result is a result of the loop itself.
-/

set_option maxRecDepth 8000

deriving instance DecidableEq for Except

/-- Ways a call can go wrong. -/
inductive Fault where
  /-- the storage of the `std::vector` cannot be obtained (`std::bad_alloc`) -/
  | bad_alloc
  /-- the length asked of the `std::vector` is above its `max_size()` (`std::length_error`) -/
  | length_error
  /-- an index outside `buffer` or outside `pattern` -/
  | out_of_bounds
  /-- the budget of a loop of the model is used up while its condition still holds -/
  | fuel
  deriving DecidableEq, Repr

/-- Observable steps of the checker. -/
inductive Event where
  /-- the call `memcmp(&buffer[b],pattern,n*sizeof(check_t))` is made -/
  | compare (b n : Nat)
  /-- the line `Mismatch found in block starting at <buffer_start> size <block_len>` -/
  | block (buffer_start block_len : Nat)
  /-- the line `RAM MISMATCH DETECTED: Index <b> should contain <should> actually had <had> (flip <flip>)` -/
  | mismatch (b should had flip : Nat)
  /-- the line `Pass FAIL` (`true`) or `Pass OK` (`false`) -/
  | pass (fail : Bool)
  deriving DecidableEq, Repr

/-- The data members of `class RAMcheck`. -/
structure RAMcheck where
  buffer_size : Nat
  buffer : List Nat
  chunk_start : Nat
  chunk_index : Nat
  pass_errors : Bool
  deriving DecidableEq, Repr

namespace RAMcheck

/-- The constant `enum { CHECK_PER_MB=1024*1024/sizeof(check_t) }`, with `sizeof(check_t) = 1`. -/
def CHECK_PER_MB : Nat := 1024*1024/1

/-- The constant `enum { PATTERN_SIZE=257 }`. -/
def PATTERN_SIZE : Nat := 257

/-- The constant `enum { CHUNK_SIZE=1024*1024/sizeof(check_t)/PATTERN_SIZE*PATTERN_SIZE }`. -/
def CHUNK_SIZE : Nat := 1024*1024/1/PATTERN_SIZE*PATTERN_SIZE

/-- The table `const RAMcheck::check_t RAMcheck::pattern[RAMcheck::PATTERN_SIZE]`. -/
def pattern : List Nat :=
  [0x55,0x55,0xaa,0xaa,0x55,0x55,0xaa,0xaa,
   0xff,0xff,0xff,0xff,0xff,0xff,0xff,0xff,
   0x00,0x00,0x00,0x00,0x00,0x00,0x00,0x00,
   0x98, 0xcc, 0x95, 0x4f, 0x96, 0xe9, 0x5c, 0x27, 0xab, 0xa9, 0xee, 0x16,
   0xad, 0x9e, 0x61, 0xf2, 0x94, 0x1d, 0x83, 0x19, 0x9a, 0x23, 0x0a, 0x31,
   0xec, 0x30, 0x43, 0xdf, 0xdf, 0x19, 0x8c, 0x40, 0x73, 0x73, 0xef, 0x3a,
   0x70, 0xf4, 0x58, 0xa3, 0x67, 0x95, 0xe6, 0x5a, 0x15, 0xb1, 0x13, 0x00,
   0x7d, 0x2c, 0x51, 0xe1, 0xc4, 0x00, 0xc4, 0xe7, 0x15, 0x4d, 0xaf, 0x85,
   0x1a, 0x5e, 0x21, 0x0a, 0xa1, 0x8d, 0xdc, 0xae, 0x66, 0xf9, 0x5e, 0xc7,
   0x25, 0xab, 0x7a, 0xee, 0x2d, 0x7a, 0x0f, 0x33, 0x43, 0x53, 0x21, 0xe6,
   0xd4, 0x4e, 0x0f, 0x8b, 0x6e, 0xa6, 0x67, 0x98, 0x74, 0x80, 0x0e, 0x82,
   0xdf, 0xb6, 0x4a, 0xc9, 0xe2, 0x49, 0x45, 0x6c, 0xe6, 0xc6, 0x64, 0x73,
   0xcd, 0xa8, 0xe3, 0xe5, 0x86, 0x77, 0x95, 0xe6, 0x7d, 0x33, 0x71, 0x2f,
   0xf9, 0x13, 0xd6, 0xd2, 0x4e, 0xbe, 0x78, 0x4d, 0x52, 0xcf, 0x83, 0xf6,
   0xb3, 0xdd, 0x94, 0xbc, 0xff, 0x88, 0xcd, 0x72, 0xa5, 0x72, 0x55, 0x0a,
   0x4d, 0x76, 0x49, 0xf8, 0x96, 0x86, 0x2c, 0x53, 0x87, 0x70, 0x44, 0x7b,
   0x14, 0x4f, 0x0d, 0xd1, 0x6f, 0x30, 0x88, 0x8d, 0xe9, 0xf0, 0xf8, 0x4a,
   0xe4, 0x6c, 0x82, 0xa3, 0x24, 0xdb, 0x65, 0x4d, 0x1e, 0xe6, 0xab, 0x0c,
   0xab, 0x42, 0xaf, 0xc8, 0xfc, 0xab, 0xd1, 0x15, 0x05, 0xdc, 0x22, 0xbf,
   0x79, 0x33, 0x41, 0x62, 0x73, 0x6e, 0xea, 0x0e, 0xb5, 0xa3, 0xdf, 0x84,
   0x34, 0xdb, 0x70, 0xdd, 0x3e, 0x48, 0x7a, 0xc8, 0x68, 0x98, 0x3d, 0x32,
   0x40, 0x10, 0x72, 0x43, 0xc8, 0x93, 0xdc, 0xfc, 0x43, 0x60, 0x49, 0xdb,
   0xd7, 0x15, 0x41, 0x93, 0x60]

/-- An unchecked array read `a[i]`. -/
def read (a : List Nat) (i : Nat) : Except Fault Nat :=
  match a[i]? with
  | some v => .ok v
  | none => .error .out_of_bounds

/-- An unchecked array write `a[i]=v`. -/
def write (a : List Nat) (i v : Nat) : Except Fault (List Nat) :=
  if i < a.length then .ok (a.set i v) else .error .out_of_bounds

/-- The loop of `fill()`: `for (size_t b=0;b<buffer_size;b++)`, entered at `b` with the
pattern cursor at `index`. -/
def fill_loop (buffer_size : Nat) : Nat → Nat → Nat → List Nat → Except Fault (List Nat)
  | 0, b, _, buffer => if b < buffer_size then .error .fuel else .ok buffer
  | fuel + 1, b, index, buffer =>
    if b < buffer_size then
      match read pattern index with
      | .error e => .error e
      | .ok v =>
        match write buffer b v with
        | .error e => .error e
        | .ok buffer1 =>
          let index1 := index + 1
          let index2 := if index1 ≥ PATTERN_SIZE then 0 else index1
          fill_loop buffer_size fuel (b + 1) index2 buffer1
    else .ok buffer

/-- The method `void fill()`: fill our buffer with the test pattern. -/
def fill (s : RAMcheck) : Except Fault RAMcheck :=
  match fill_loop s.buffer_size (s.buffer_size - 0) 0 0 s.buffer with
  | .error e => .error e
  | .ok buffer1 =>
    .ok { s with buffer := buffer1, chunk_start := 0, chunk_index := 0, pass_errors := false }

/-- The method `virtual void found_mismatch(size_t buffer_index,size_t pattern_index)`:
mismatch detected at this byte. -/
def found_mismatch (s : RAMcheck) (buffer_index pattern_index : Nat) :
    Except Fault (RAMcheck × List Event) :=
  let b := buffer_index
  match read pattern pattern_index with
  | .error e => .error e
  | .ok should =>
    match read s.buffer b with
    | .error e => .error e
    | .ok had =>
      let flip := had ^^^ should
      .ok ({ s with pass_errors := true }, [Event.mismatch b should had flip])

/-- The loop of `found_mismatch_block`: `for (size_t index=0;index<block_len;index++)`,
entered at `index`. -/
def found_mismatch_block_loop (buffer_start block_len : Nat) :
    Nat → Nat → RAMcheck → Except Fault (RAMcheck × List Event)
  | 0, index, s => if index < block_len then .error .fuel else .ok (s, [])
  | fuel + 1, index, s =>
    if index < block_len then
      let b := buffer_start + index
      match read s.buffer b with
      | .error e => .error e
      | .ok x =>
        match read pattern index with
        | .error e => .error e
        | .ok y =>
          match (if x ≠ y then found_mismatch s b index else .ok (s, [])) with
          | .error e => .error e
          | .ok (s1, out1) =>
            match found_mismatch_block_loop buffer_start block_len fuel (index + 1) s1 with
            | .error e => .error e
            | .ok (s2, out2) => .ok (s2, out1 ++ out2)
    else .ok (s, [])

/-- The method `void RAMcheck::found_mismatch_block(size_t buffer_start,size_t block_len)`:
mismatch detected at this block. -/
def found_mismatch_block (s : RAMcheck) (buffer_start block_len : Nat) :
    Except Fault (RAMcheck × List Event) :=
  match found_mismatch_block_loop buffer_start block_len (block_len - 0) 0 s with
  | .error e => .error e
  | .ok (s1, out1) => .ok (s1, Event.block buffer_start block_len :: out1)

/-- The value `memcmp` gives for two byte strings of one length: zero when they agree,
else the difference of the first two bytes that differ. -/
def memcmp_bytes : List Nat → List Nat → Int
  | x :: xs, y :: ys => if x ≠ y then (x : Int) - (y : Int) else memcmp_bytes xs ys
  | _, _ => 0

/-- The call `memcmp(&s1[o1],s2,n)`: both strings of `n` bytes have to lie inside their arrays. -/
def memcmp (s1 : List Nat) (o1 : Nat) (s2 : List Nat) (n : Nat) : Except Fault Int :=
  if o1 + n ≤ s1.length ∧ n ≤ s2.length then
    .ok (memcmp_bytes ((s1.drop o1).take n) (s2.take n))
  else .error .out_of_bounds

/-- The loop of `check_chunk()`: `for (size_t b=chunk_start;b<end;b+=PATTERN_SIZE)`,
entered at `b`. -/
def check_chunk_loop (end_ : Nat) : Nat → Nat → RAMcheck → Except Fault (RAMcheck × List Event)
  | 0, b, s => if b < end_ then .error .fuel else .ok (s, [])
  | fuel + 1, b, s =>
    if b < end_ then
      let n := PATTERN_SIZE
      let n := if b + n > end_ then end_ - b else n
      match memcmp s.buffer b pattern n with
      | .error e => .error e
      | .ok c =>
        match (if 0 ≠ c then found_mismatch_block s b n else .ok (s, [])) with
        | .error e => .error e
        | .ok (s1, out1) =>
          match check_chunk_loop end_ fuel (b + PATTERN_SIZE) s1 with
          | .error e => .error e
          | .ok (s2, out2) => .ok (s2, Event.compare b n :: out1 ++ out2)
    else .ok (s, [])

/-- The body of `check_chunk()` with the constant `CHUNK_SIZE` as the argument
`chunk_size` (the local `index` of the source is assigned and never read). -/
def check_chunk_with (chunk_size : Nat) (s : RAMcheck) : Except Fault (RAMcheck × List Event) :=
  let end_ := s.chunk_start + chunk_size
  let end_ := if end_ > s.buffer_size then s.buffer_size else end_
  match check_chunk_loop end_ (end_ - s.chunk_start) s.chunk_start s with
  | .error e => .error e
  | .ok (s1, out1) =>
    let s2 := { s1 with chunk_start := end_ }
    if s2.chunk_start ≥ s2.buffer_size then
      match (if s2.pass_errors then fill s2 else .ok s2) with
      | .error e => .error e
      | .ok s3 =>
        .ok ({ s3 with chunk_start := 0, chunk_index := 0 }, out1 ++ [Event.pass s2.pass_errors])
    else .ok (s2, out1)

/-- The method `void check_chunk()`: check the next chunk of data. -/
def check_chunk (s : RAMcheck) : Except Fault (RAMcheck × List Event) :=
  check_chunk_with CHUNK_SIZE s

/-- The largest length of a `std::vector<check_t>`, its `max_size()`: `PTRDIFF_MAX`
elements of one byte. -/
def vector_max_size : Nat := 2 ^ 63 - 1

/-- The member initialiser `std::vector<check_t> buffer(n)`: it throws
`std::length_error` for a length above `max_size()`, whatever memory there is; below
that it gives `n` zero bytes when the allocator grants `n` bytes (`avail` is the largest
request it grants) and throws `std::bad_alloc` when it does not. -/
def vector_new (avail n : Nat) : Except Fault (List Nat) :=
  if n > vector_max_size then .error .length_error
  else if n ≤ avail then .ok (List.replicate n 0) else .error .bad_alloc

/-- The constructor `RAMcheck(long mb)`: set up a RAM checker for this many megs.  The product is
converted from `long` to `size_t`; `chunk_start`, `chunk_index` and `pass_errors`
have no value before `fill()` assigns them. -/
def construct (avail : Nat) (mb : Int) : Except Fault RAMcheck :=
  let buffer_size := ((mb * (CHECK_PER_MB : Int)) % 2 ^ 64).toNat
  match vector_new avail buffer_size with
  | .error e => .error e
  | .ok buffer =>
    fill { buffer_size := buffer_size, buffer := buffer, chunk_start := 0, chunk_index := 0,
           pass_errors := false }

/-- The loop of `main`, `while (1) { checker.check_chunk(); usleep(100*1000); }`, cut
after `k` rounds; the result lists what each call did. -/
def check_chunks (chunk_size : Nat) : Nat → RAMcheck → Except Fault (RAMcheck × List (List Event))
  | 0, s => .ok (s, [])
  | k + 1, s =>
    match check_chunk_with chunk_size s with
    | .error e => .error e
    | .ok (s1, out1) =>
      match check_chunks chunk_size k s1 with
      | .error e => .error e
      | .ok (s2, outs) => .ok (s2, out1 :: outs)

/-- Does this output hold a pass summary line? -/
def pass_done (out : List Event) : Bool :=
  out.any fun e => match e with
    | .pass _ => true
    | _ => false

/-- The loop of `main` cut at the first call that prints a pass summary; `none` when
`calls` calls do not reach one. -/
def run_pass (chunk_size : Nat) : Nat → RAMcheck →
    Except Fault (Option (RAMcheck × List (List Event)))
  | 0, _ => .ok none
  | calls + 1, s =>
    match check_chunk_with chunk_size s with
    | .error e => .error e
    | .ok (s1, out1) =>
      if pass_done out1 then .ok (some (s1, [out1]))
      else
        match run_pass chunk_size calls s1 with
        | .error e => .error e
        | .ok none => .ok none
        | .ok (some (s2, outs)) => .ok (some (s2, out1 :: outs))

/-- A fault of the memory under test: byte `k` of the buffer becomes `v`. -/
def corrupt (s : RAMcheck) (k v : Nat) : RAMcheck :=
  { s with buffer := s.buffer.set k v }

/-! ## Vocabulary of the statements -/

/-- The buffer of `n` bytes that repeats the pattern: byte `i` is `pattern[i mod 257]`. -/
def healthy (n : Nat) : List Nat :=
  (List.range n).map fun i => pattern.getD (i % PATTERN_SIZE) 0

/-- The class invariant of `RAMcheck`: `buffer` is the vector of `buffer_size` bytes
made by the constructor (nothing resizes it). -/
def wf (s : RAMcheck) : Prop := s.buffer.length = s.buffer_size

instance (s : RAMcheck) : Decidable s.wf := by unfold wf; infer_instance


/-- The line `found_mismatch` prints for offset `i` of a scan whose pattern phase starts
at offset `c`, when the byte there is not the expected one; nothing when it is. -/
def report_at (buf : List Nat) (c i : Nat) : List Event :=
  let should := pattern.getD ((i - c) % PATTERN_SIZE) 0
  let had := buf.getD i 0
  if had ≠ should then [Event.mismatch i should had (had ^^^ should)] else []

/-- The mismatch lines of the offsets `lo, lo+1, ..., lo+len-1`, in ascending order. -/
def reports_in (buf : List Nat) (c lo len : Nat) : List Event :=
  (List.range' lo len).flatMap (report_at buf c)

/-- The byte mismatch lines of an output. -/
def reports (out : List Event) : List Event :=
  out.filter fun e => match e with
    | .mismatch _ _ _ _ => true
    | _ => false

/-- The block mismatch lines of an output. -/
def block_reports (out : List Event) : List Event :=
  out.filter fun e => match e with
    | .block _ _ => true
    | _ => false

/-- The pass summaries of an output: `true` for `Pass FAIL`, `false` for `Pass OK`. -/
def summaries (out : List Event) : List Bool :=
  out.filterMap fun e => match e with
    | .pass f => some f
    | _ => none

/-- The `(start, length)` blocks an output hands to `memcmp`, in order. -/
def compared (out : List Event) : List (Nat × Nat) :=
  out.filterMap fun e => match e with
    | .compare b n => some (b, n)
    | _ => none

/-- The buffer offsets an output scans, in the order they are scanned. -/
def scanned (out : List Event) : List Nat :=
  (compared out).flatMap fun p => List.range' p.1 p.2

/-- What the block loop of `check_chunk()` puts out when it scans the offsets `lo..hi-1`
of `buf` with the pattern phase starting at `c`. -/
structure ScanOf (buf : List Nat) (c lo hi : Nat) (out : List Event) : Prop where
  /-- the byte mismatch lines are those of the offsets that differ, in ascending order -/
  reports_eq : reports out = reports_in buf c lo (hi - lo)
  /-- every offset is handed to `memcmp` once, in ascending order -/
  scanned_eq : scanned out = List.range' lo (hi - lo)
  /-- no pass summary comes out of the loop -/
  summaries_eq : summaries out = []
  /-- a block line comes with a byte line and a byte line with a block line -/
  blocks_iff : block_reports out = [] ↔ reports out = []
  /-- the blocks start on the phase of the scan and are whole or end the scan -/
  compared_ok : ∀ p ∈ compared out,
    lo ≤ p.1 ∧ (p.1 - c) % 257 = 0 ∧ 0 < p.2 ∧ p.2 = min 257 (hi - p.1)

/-- What happens to a checker after its construction: a call of one of its two public
methods, or a fault of the memory under test. -/
inductive Action where
  | fill
  | check_chunk
  | corrupt (k v : Nat)
  deriving DecidableEq, Repr

/-- A checker together with the byte mismatch lines printed since the pass it is in
began, that is since the last `fill()` or the last pass summary. -/
structure Tracked where
  s : RAMcheck
  reported : List Event
  deriving DecidableEq, Repr

/-- One action on a tracked checker. -/
def Tracked.step (t : Tracked) : Action → Except Fault Tracked
  | .fill =>
    match fill t.s with
    | .error e => .error e
    | .ok s1 => .ok ⟨s1, []⟩
  | .check_chunk =>
    match check_chunk t.s with
    | .error e => .error e
    | .ok (s1, out) => .ok ⟨s1, if pass_done out then [] else t.reported ++ reports out⟩
  | .corrupt k v => .ok ⟨corrupt t.s k v, t.reported⟩

/-- A sequence of actions on a tracked checker. -/
def Tracked.steps (t : Tracked) : List Action → Except Fault Tracked
  | [] => .ok t
  | a :: as =>
    match t.step a with
    | .error e => .error e
    | .ok t1 => t1.steps as

/-- The states a checker can be in: those that a sequence of actions leads to from a
constructed checker. -/
def Reachable (t : Tracked) : Prop :=
  ∃ (avail : Nat) (mb : Int) (s0 : RAMcheck) (acts : List Action),
    construct avail mb = .ok s0 ∧ Tracked.steps ⟨s0, []⟩ acts = .ok t

/-! ## fill -/

theorem pattern_length : pattern.length = 257 := by decide

theorem read_pattern (i : Nat) (h : i < 257) :
    read pattern i = .ok (pattern.getD i 0) := by
  have hl : i < pattern.length := by rw [pattern_length]; exact h
  simp [read, List.getD_eq_getElem?_getD, List.getElem?_eq_getElem hl]

theorem read_buffer (a : List Nat) (i : Nat) (h : i < a.length) :
    read a i = .ok (a.getD i 0) := by
  simp [read, List.getD_eq_getElem?_getD, List.getElem?_eq_getElem h]

theorem healthy_length (n : Nat) : (healthy n).length = n := by simp [healthy]

theorem healthy_getElem? (n i : Nat) (h : i < n) :
    (healthy n)[i]? = pattern[i % PATTERN_SIZE]? := by
  have hl : i % PATTERN_SIZE < pattern.length := by
    rw [pattern_length]; exact Nat.mod_lt _ (by decide)
  simp [healthy, List.getElem?_map, List.getElem?_range h, List.getD_eq_getElem?_getD,
    List.getElem?_eq_getElem hl]

theorem healthy_getD (n i : Nat) (h : i < n) :
    (healthy n).getD i 0 = pattern.getD (i % PATTERN_SIZE) 0 := by
  simp [List.getD_eq_getElem?_getD, healthy_getElem? n i h]

theorem fill_loop_spec (n : Nat) : ∀ (fuel b index : Nat) (buf : List Nat),
    buf.length = n → index = b % 257 → n - b ≤ fuel →
    ∃ r, fill_loop n fuel b index buf = .ok r ∧ r.length = n ∧
      (∀ i, i < b → r[i]? = buf[i]?) ∧
      (∀ i, b ≤ i → i < n → r[i]? = some (pattern.getD (i % 257) 0)) := by
  intro fuel
  induction fuel with
  | zero =>
    intro b index buf hlen _ hfuel
    have hb : ¬ b < n := by omega
    refine ⟨buf, by simp [fill_loop, hb], hlen, fun _ _ => rfl, ?_⟩
    intro i h1 h2; omega
  | succ fuel ih =>
    intro b index buf hlen hidx hfuel
    by_cases hb : b < n
    · have hi : index < 257 := by omega
      have hw : b < buf.length := by omega
      obtain ⟨r, hr, hrl, hlow, hhigh⟩ :=
        ih (b + 1) (if index + 1 ≥ PATTERN_SIZE then 0 else index + 1)
          (buf.set b (pattern.getD index 0)) (by simp [hlen])
          (by simp only [PATTERN_SIZE]; split <;> omega) (by omega)
      refine ⟨r, ?_, hrl, ?_, ?_⟩
      · simp only [fill_loop, hb, if_true, read_pattern index hi, write, hw]
        exact hr
      · intro i hib
        rw [hlow i (by omega), List.getElem?_set_ne (by omega)]
      · intro i h1 h2
        by_cases hib : i = b
        · subst hib
          rw [hlow i (by omega), List.getElem?_set_self hw, hidx]
        · exact hhigh i (by omega) h2
    · refine ⟨buf, by simp [fill_loop, hb], hlen, fun _ _ => rfl, ?_⟩
      intro i h1 h2; omega

/-- On a checker that satisfies the class invariant, `fill()` returns the state with the
healthy buffer, the cursor at the start and the flag cleared. -/
theorem fill_eq (s : RAMcheck) (h : s.wf) :
    fill s = .ok { s with buffer := healthy s.buffer_size, chunk_start := 0,
                          chunk_index := 0, pass_errors := false } := by
  obtain ⟨r, hr, hrl, -, hhigh⟩ :=
    fill_loop_spec s.buffer_size (s.buffer_size - 0) 0 0 s.buffer h (by simp) (by omega)
  have : r = healthy s.buffer_size := by
    apply List.ext_getElem?
    intro i
    by_cases hi : i < s.buffer_size
    · rw [hhigh i (by omega) hi]
      simp [healthy, List.getElem?_map, List.getElem?_range hi, PATTERN_SIZE]
    · rw [List.getElem?_eq_none (by omega), List.getElem?_eq_none (by simp [healthy_length]; omega)]
  simp only [fill, hr, this]


/-! ## Reporting -/

theorem report_at_eq_nil (buf : List Nat) (c i : Nat) :
    report_at buf c i = [] ↔ buf.getD i 0 = pattern.getD ((i - c) % PATTERN_SIZE) 0 := by
  unfold report_at
  by_cases h : buf.getD i 0 = pattern.getD ((i - c) % PATTERN_SIZE) 0 <;> simp [h]

theorem reports_in_succ (buf : List Nat) (c lo len : Nat) :
    reports_in buf c lo (len + 1) = report_at buf c lo ++ reports_in buf c (lo + 1) len := by
  simp [reports_in, List.range'_succ]

theorem reports_in_zero (buf : List Nat) (c lo : Nat) : reports_in buf c lo 0 = [] := by
  simp [reports_in]

theorem reports_in_add (buf : List Nat) (c lo m n : Nat) :
    reports_in buf c lo (m + n) = reports_in buf c lo m ++ reports_in buf c (lo + m) n := by
  have := List.range'_append lo m n 1
  simp only [Nat.one_mul] at this
  rw [reports_in, Nat.add_comm m n, ← this, List.flatMap_append]
  rfl

theorem reports_in_eq_nil (buf : List Nat) (c lo len : Nat) :
    reports_in buf c lo len = [] ↔
      ∀ i, lo ≤ i → i < lo + len → buf.getD i 0 = pattern.getD ((i - c) % PATTERN_SIZE) 0 := by
  simp only [reports_in, List.flatMap_eq_nil_iff, List.mem_range'_1, report_at_eq_nil]
  constructor
  · intro h i h1 h2; exact h i ⟨h1, h2⟩
  · intro h i hi; exact h i hi.1 hi.2

theorem reports_reports_in (buf : List Nat) (c lo len : Nat) :
    reports (reports_in buf c lo len) = reports_in buf c lo len := by
  induction len generalizing lo with
  | zero => simp [reports_in, reports]
  | succ len ih =>
    rw [reports_in_succ]
    have h := ih (lo + 1)
    unfold reports at h ⊢
    rw [List.filter_append, h]
    unfold report_at
    by_cases hx : buf.getD lo 0 = pattern.getD ((lo - c) % PATTERN_SIZE) 0 <;> simp [hx]

theorem found_mismatch_block_loop_spec (bs n : Nat) : ∀ (fuel index : Nat) (s : RAMcheck),
    bs + n ≤ s.buffer.length → n ≤ 257 → n - index ≤ fuel →
    found_mismatch_block_loop bs n fuel index s =
      .ok ({ s with pass_errors :=
               s.pass_errors || !(reports_in s.buffer bs (bs + index) (n - index)).isEmpty },
           reports_in s.buffer bs (bs + index) (n - index)) := by
  intro fuel
  induction fuel with
  | zero =>
    intro index s _ _ hfuel
    have h0 : n - index = 0 := by omega
    have hlt : ¬ index < n := by omega
    simp [found_mismatch_block_loop, hlt, h0, reports_in_zero]
  | succ fuel ih =>
    intro index s hb hn hfuel
    by_cases hlt : index < n
    · have hrd : read s.buffer (bs + index) = .ok (s.buffer.getD (bs + index) 0) :=
        read_buffer _ _ (by omega)
      have hrp : read pattern index = .ok (pattern.getD index 0) := read_pattern _ (by omega)
      have hsplit : n - index = (n - index - 1) + 1 := by omega
      have hph : (bs + index - bs) % PATTERN_SIZE = index := by
        simp only [PATTERN_SIZE]; omega
      rw [hsplit, reports_in_succ]
      have hn1 : n - index - 1 = n - (index + 1) := by omega
      simp only [found_mismatch_block_loop, hlt, if_true, hrd, hrp]
      by_cases hx : s.buffer.getD (bs + index) 0 = pattern.getD index 0
      · have := ih (index + 1) s hb hn (by omega)
        simp only [hx, ne_eq, not_true_eq_false, if_false, this, report_at, hph, hn1,
          List.nil_append, Nat.add_assoc]
      · have := ih (index + 1) { s with pass_errors := true } hb hn (by omega)
        simp only [hx, ne_eq, not_false_eq_true, if_true, found_mismatch, hrd, hrp, this,
          report_at, hph, hn1, Nat.add_assoc]
        simp
    · have h0 : n - index = 0 := by omega
      simp [found_mismatch_block_loop, hlt, h0, reports_in_zero]

theorem found_mismatch_block_spec (s : RAMcheck) (bs n : Nat)
    (hb : bs + n ≤ s.buffer.length) (hn : n ≤ 257) :
    found_mismatch_block s bs n =
      .ok ({ s with pass_errors := s.pass_errors || !(reports_in s.buffer bs bs n).isEmpty },
           Event.block bs n :: reports_in s.buffer bs bs n) := by
  have := found_mismatch_block_loop_spec bs n (n - 0) 0 s hb hn (by omega)
  simp only [Nat.add_zero, Nat.sub_zero] at this
  simp only [found_mismatch_block, Nat.sub_zero, this]

/-! ## The block loop of check_chunk -/

theorem memcmp_bytes_eq_zero : ∀ (xs ys : List Nat), xs.length = ys.length →
    (memcmp_bytes xs ys = 0 ↔ xs = ys) := by
  intro xs
  induction xs with
  | nil => intro ys h; cases ys <;> simp_all [memcmp_bytes]
  | cons x xs ih =>
    intro ys h
    cases ys with
    | nil => simp at h
    | cons y ys =>
      have hl : xs.length = ys.length := by simpa using h
      by_cases hxy : x = y
      · simp [memcmp_bytes, hxy, ih ys hl]
      · simp only [memcmp_bytes, ne_eq, hxy, not_false_eq_true, if_true, List.cons.injEq,
          false_and, iff_false]
        omega

theorem memcmp_spec (buf : List Nat) (bs n : Nat) (hb : bs + n ≤ buf.length) (hn : n ≤ 257) :
    ∃ c, memcmp buf bs pattern n = .ok c ∧ (c = 0 ↔ reports_in buf bs bs n = []) := by
  have hp : n ≤ pattern.length := by rw [pattern_length]; exact hn
  refine ⟨memcmp_bytes ((buf.drop bs).take n) (pattern.take n), by simp [memcmp, hb, hp], ?_⟩
  rw [memcmp_bytes_eq_zero _ _ (by simp; omega), reports_in_eq_nil]
  constructor
  · intro h i h1 h2
    have hi := congrArg (fun l => l[i - bs]?) h
    simp only [List.getElem?_take, List.getElem?_drop] at hi
    have e1 : i - bs < n := by omega
    have e2 : bs + (i - bs) = i := by omega
    have e3 : (i - bs) % PATTERN_SIZE = i - bs := by simp only [PATTERN_SIZE]; omega
    simp only [e1, if_true, e2] at hi
    simp [List.getD_eq_getElem?_getD, hi, e3]
  · intro h
    apply List.ext_getElem?
    intro j
    simp only [List.getElem?_take, List.getElem?_drop]
    by_cases hj : j < n
    · have := h (bs + j) (by omega) (by omega)
      have e3 : (bs + j - bs) % PATTERN_SIZE = j := by simp only [PATTERN_SIZE]; omega
      have l1 : bs + j < buf.length := by omega
      have l2 : j < pattern.length := by omega
      simp only [List.getD_eq_getElem?_getD, e3, List.getElem?_eq_getElem l1,
        List.getElem?_eq_getElem l2, Option.getD_some] at this
      simp [hj, List.getElem?_eq_getElem l1, List.getElem?_eq_getElem l2, this]
    · simp [hj]

theorem reports_in_phase (buf : List Nat) (c b : Nat) (hc : c ≤ b) (hm : (b - c) % 257 = 0) :
    ∀ (len lo : Nat), b ≤ lo → reports_in buf b lo len = reports_in buf c lo len := by
  intro len
  induction len with
  | zero => intro lo _; simp [reports_in_zero]
  | succ len ih =>
    intro lo hlo
    have e : (lo - b) % PATTERN_SIZE = (lo - c) % PATTERN_SIZE := by
      simp only [PATTERN_SIZE]; omega
    rw [reports_in_succ, reports_in_succ, ih (lo + 1) (by omega)]
    simp only [report_at, e]

theorem reports_cons_compare (b n : Nat) (out : List Event) :
    reports (Event.compare b n :: out) = reports out := by simp [reports]

theorem reports_cons_block (b n : Nat) (out : List Event) :
    reports (Event.block b n :: out) = reports out := by simp [reports]

theorem reports_append (o1 o2 : List Event) : reports (o1 ++ o2) = reports o1 ++ reports o2 := by
  simp [reports]

theorem block_reports_append (o1 o2 : List Event) :
    block_reports (o1 ++ o2) = block_reports o1 ++ block_reports o2 := by
  simp [block_reports]

theorem summaries_append (o1 o2 : List Event) :
    summaries (o1 ++ o2) = summaries o1 ++ summaries o2 := by
  simp [summaries]

theorem compared_append (o1 o2 : List Event) :
    compared (o1 ++ o2) = compared o1 ++ compared o2 := by
  simp [compared]

theorem scanned_append (o1 o2 : List Event) : scanned (o1 ++ o2) = scanned o1 ++ scanned o2 := by
  simp [scanned, compared_append]

theorem block_reports_reports_in (buf : List Nat) (c lo len : Nat) :
    block_reports (reports_in buf c lo len) = [] := by
  induction len generalizing lo with
  | zero => simp [reports_in, block_reports]
  | succ len ih =>
    rw [reports_in_succ, block_reports_append, ih (lo + 1)]
    unfold report_at block_reports
    by_cases hx : buf.getD lo 0 = pattern.getD ((lo - c) % PATTERN_SIZE) 0 <;> simp [hx]

theorem summaries_reports_in (buf : List Nat) (c lo len : Nat) :
    summaries (reports_in buf c lo len) = [] := by
  induction len generalizing lo with
  | zero => simp [reports_in, summaries]
  | succ len ih =>
    rw [reports_in_succ, summaries_append, ih (lo + 1)]
    unfold report_at summaries
    by_cases hx : buf.getD lo 0 = pattern.getD ((lo - c) % PATTERN_SIZE) 0 <;> simp [hx]

theorem compared_reports_in (buf : List Nat) (c lo len : Nat) :
    compared (reports_in buf c lo len) = [] := by
  induction len generalizing lo with
  | zero => simp [reports_in, compared]
  | succ len ih =>
    rw [reports_in_succ, compared_append, ih (lo + 1)]
    unfold report_at compared
    by_cases hx : buf.getD lo 0 = pattern.getD ((lo - c) % PATTERN_SIZE) 0 <;> simp [hx]

theorem scanOf_done (buf : List Nat) (c b e : Nat) (h : e ≤ b) : ScanOf buf c b e [] := by
  have h0 : e - b = 0 := by omega
  constructor
  · simp [reports, h0, reports_in_zero]
  · simp [scanned, compared, h0]
  · simp [summaries]
  · simp [reports, block_reports]
  · intro p hp; simp [compared] at hp

theorem check_chunk_loop_spec (e c : Nat) : ∀ (fuel b : Nat) (s : RAMcheck),
    e ≤ s.buffer.length → c ≤ b → (b - c) % 257 = 0 → e - b ≤ fuel →
    ∃ out, check_chunk_loop e fuel b s =
        .ok ({ s with pass_errors := s.pass_errors || !(reports out).isEmpty }, out) ∧
      ScanOf s.buffer c b e out := by
  intro fuel
  induction fuel with
  | zero =>
    intro b s _ _ _ hfuel
    have hlt : ¬ b < e := by omega
    exact ⟨[], by simp [check_chunk_loop, hlt, reports], scanOf_done _ _ _ _ (by omega)⟩
  | succ fuel ih =>
    intro b s he hc hm hfuel
    by_cases hlt : b < e
    · -- the length of this block
      obtain ⟨n, hn⟩ : ∃ n, n = (if b + 257 > e then e - b else 257) := ⟨_, rfl⟩
      have hn257 : n ≤ 257 := by rw [hn]; split <;> omega
      have hnpos : 0 < n := by rw [hn]; split <;> omega
      have hnmin : n = min 257 (e - b) := by
        rw [hn]; split <;> omega
      have hbn : b + n ≤ s.buffer.length := by omega
      obtain ⟨cmp, hcmp, hzero⟩ := memcmp_spec s.buffer b n hbn hn257
      have hrest : reports_in s.buffer c (b + 257) (e - (b + 257)) =
          reports_in s.buffer c (b + n) (e - b - n) := by
        by_cases h257 : n = 257
        · subst h257; rw [Nat.sub_sub]
        · have e1 : e - (b + 257) = 0 := by omega
          have e2 : e - b - n = 0 := by omega
          rw [e1, e2, reports_in_zero, reports_in_zero]
      have hsplit : e - b = n + (e - b - n) := by omega
      have hrange : List.range' b n ++ List.range' (b + 257) (e - (b + 257)) =
          List.range' b (e - b) := by
        by_cases h257 : n = 257
        · subst h257
          have := List.range'_append b 257 (e - (b + 257)) 1
          simp only [Nat.one_mul] at this
          rw [this]; congr 1; omega
        · have e1 : e - (b + 257) = 0 := by omega
          have e2 : e - b = n := by omega
          rw [e1, e2]; simp
      by_cases hz : cmp = 0
      · -- the block agrees with the pattern
        have hnil : reports_in s.buffer b b n = [] := hzero.mp hz
        obtain ⟨out2, hout2, hs2⟩ := ih (b + 257) s he (by omega) (by omega) (by omega)
        refine ⟨Event.compare b n :: out2, ?_, ?_⟩
        · simp only [check_chunk_loop, hlt, if_true, PATTERN_SIZE]
          rw [← hn]
          simp only [hcmp, hz, ne_eq, not_true_eq_false,
            if_false, hout2, reports_cons_compare, List.nil_append]
          rfl
        · constructor
          · rw [reports_cons_compare, hs2.reports_eq, hrest, hsplit, reports_in_add,
              ← reports_in_phase s.buffer c b hc hm n b (Nat.le_refl b), hnil]
            simp
          · have := hs2.scanned_eq
            simp only [scanned, compared, List.filterMap_cons, List.flatMap_cons] at this ⊢
            rw [this, hrange]
          · have := hs2.summaries_eq
            simpa [summaries] using this
          · have := hs2.blocks_iff
            simpa [block_reports, reports] using this
          · intro p hp
            simp only [compared, List.filterMap_cons, List.mem_cons] at hp
            rcases hp with hp | hp
            · subst hp; exact ⟨Nat.le_refl _, hm, hnpos, hnmin⟩
            · have := hs2.compared_ok p hp
              exact ⟨by omega, this.2.1, this.2.2.1, this.2.2.2⟩
      · -- the block differs: found_mismatch_block reports its bytes
        have hne : reports_in s.buffer b b n ≠ [] := fun h => hz (hzero.mpr h)
        have hne2 : (reports_in s.buffer b b n).isEmpty = false := by
          cases hr : reports_in s.buffer b b n with
          | nil => exact absurd hr hne
          | cons _ _ => rfl
        have hblk : found_mismatch_block s b n =
            .ok ({ s with pass_errors := true }, Event.block b n :: reports_in s.buffer b b n) := by
          rw [found_mismatch_block_spec s b n hbn hn257, hne2]; simp
        obtain ⟨out2, hout2, hs2⟩ := ih (b + 257) { s with pass_errors := true }
          he (by omega) (by omega) (by omega)
        have hout2b : check_chunk_loop e fuel (b + 257) { s with pass_errors := true } =
            .ok ({ s with pass_errors := true }, out2) := by
          rw [hout2]; simp
        have hz2 : ¬ (0 = cmp) := fun h => hz h.symm
        have hrep : reports (Event.compare b n :: (Event.block b n :: reports_in s.buffer b b n)
            ++ out2) = reports_in s.buffer b b n ++ reports out2 := by
          simp only [List.cons_append, reports_cons_compare, reports_cons_block, reports_append,
            reports_reports_in]
        have hemp : (reports_in s.buffer b b n ++ reports out2).isEmpty = false := by
          cases hr : reports_in s.buffer b b n with
          | nil => exact absurd hr hne
          | cons _ _ => rfl
        refine ⟨Event.compare b n :: (Event.block b n :: reports_in s.buffer b b n) ++ out2,
          ?_, ?_⟩
        · simp only [check_chunk_loop, hlt, if_true, PATTERN_SIZE]
          rw [← hn]
          simp only [hcmp, ne_eq, hz2, not_false_eq_true, if_true, hblk, hout2b, hrep, hemp]
          simp
        · constructor
          · rw [hrep, hs2.reports_eq, hrest, hsplit, reports_in_add,
              ← reports_in_phase s.buffer c b hc hm n b (Nat.le_refl b)]
            congr 2; omega
          · have := hs2.scanned_eq
            simp only [scanned, compared_append, compared, List.filterMap_cons,
              List.flatMap_cons, List.cons_append] at this ⊢
            have hc0 := compared_reports_in s.buffer b b n
            simp only [compared] at hc0
            rw [List.filterMap_append, hc0, List.nil_append, this, hrange]
          · have := hs2.summaries_eq
            have h0 := summaries_reports_in s.buffer b b n
            simp only [summaries] at this h0 ⊢
            simp [List.filterMap_append, this, h0]
          · rw [hrep]
            constructor
            · intro h; simp [block_reports] at h
            · intro h
              have : reports_in s.buffer b b n = [] := (List.append_eq_nil.mp h).1
              exact absurd this hne
          · intro p hp
            simp only [compared, List.cons_append, List.filterMap_cons, List.mem_cons,
              List.filterMap_append, List.mem_append] at hp
            have hc0 := compared_reports_in s.buffer b b n
            simp only [compared] at hc0
            rw [hc0] at hp
            rcases hp with hp | hp | hp
            · subst hp; exact ⟨Nat.le_refl _, hm, hnpos, hnmin⟩
            · simp at hp
            · have := hs2.compared_ok p hp
              exact ⟨by omega, this.2.1, this.2.2.1, this.2.2.2⟩
    · exact ⟨[], by simp [check_chunk_loop, hlt, reports], scanOf_done _ _ _ _ (by omega)⟩

/-! ## One call of check_chunk -/

/-- What one call of `check_chunk()` does on a checker that satisfies the class
invariant: it scans from `chunk_start` to `min (chunk_start + chunk_size) buffer_size`;
short of the end of the buffer it advances the cursor and keeps or raises the flag, at
the end it prints the summary, refills after a failure, and resets cursor and flag. -/
theorem check_chunk_with_spec (cs : Nat) (s : RAMcheck) (h : s.wf) :
    ∃ out, ScanOf s.buffer s.chunk_start s.chunk_start
        (min (s.chunk_start + cs) s.buffer_size) out ∧
      check_chunk_with cs s = .ok
        (if s.chunk_start + cs < s.buffer_size then
          ({ s with chunk_start := s.chunk_start + cs,
                    pass_errors := s.pass_errors || !(reports out).isEmpty }, out)
        else
          ({ buffer_size := s.buffer_size,
             buffer := if (s.pass_errors || !(reports out).isEmpty) = true
                       then healthy s.buffer_size else s.buffer,
             chunk_start := 0, chunk_index := 0, pass_errors := false },
           out ++ [Event.pass (s.pass_errors || !(reports out).isEmpty)])) := by
  obtain ⟨e, he⟩ : ∃ e, e = (if s.chunk_start + cs > s.buffer_size then s.buffer_size
      else s.chunk_start + cs) := ⟨_, rfl⟩
  have hmin : e = min (s.chunk_start + cs) s.buffer_size := by rw [he]; split <;> omega
  have hwf : s.buffer.length = s.buffer_size := h
  obtain ⟨out, hout, hscan⟩ := check_chunk_loop_spec e s.chunk_start (e - s.chunk_start)
    s.chunk_start s (by omega) (Nat.le_refl _) (by simp) (Nat.le_refl _)
  refine ⟨out, hmin ▸ hscan, ?_⟩
  simp only [check_chunk_with]
  rw [← he]
  simp only [hout]
  by_cases hlt : s.chunk_start + cs < s.buffer_size
  · have e1 : e = s.chunk_start + cs := by omega
    have e2 : ¬ (s.chunk_start + cs ≥ s.buffer_size) := by omega
    simp only [hlt, if_true, e1, e2, if_false]
  · have e1 : e = s.buffer_size := by omega
    simp only [hlt, if_false, e1, ge_iff_le, Nat.le_refl, if_true]
    cases hf : (s.pass_errors || !(reports out).isEmpty)
    · simp
    · have hw2 : ({ s with pass_errors := true, chunk_start := s.buffer_size } : RAMcheck).wf := hwf
      simp [fill_eq _ hw2]

/-! ## Successive calls -/

theorem scanOf_phase (buf : List Nat) (c c1 lo hi : Nat) (out : List Event)
    (h : ScanOf buf c1 lo hi out) (hc : c ≤ c1) (hm : (c1 - c) % 257 = 0) (hlo : c1 ≤ lo) :
    ScanOf buf c lo hi out := by
  constructor
  · rw [h.reports_eq, reports_in_phase buf c c1 hc hm _ lo hlo]
  · exact h.scanned_eq
  · exact h.summaries_eq
  · exact h.blocks_iff
  · intro p hp
    have := h.compared_ok p hp
    exact ⟨this.1, by omega, this.2.2.1, this.2.2.2⟩

theorem isEmpty_append_not (x y : List Event) (a : Bool) :
    ((a || !x.isEmpty) || !y.isEmpty) = (a || !(x ++ y).isEmpty) := by
  cases x <;> cases y <;> cases a <;> rfl

theorem mul_mod_257 (j cs : Nat) (hcs : cs % 257 = 0) : (j * cs) % 257 = 0 := by
  rw [Nat.mul_mod, hcs]; simp

theorem check_chunks_snoc (cs : Nat) : ∀ (j : Nat) (s : RAMcheck),
    check_chunks cs (j + 1) s =
      match check_chunks cs j s with
      | .error e => .error e
      | .ok (s1, outs) =>
        match check_chunk_with cs s1 with
        | .error e => .error e
        | .ok (s2, out) => .ok (s2, outs ++ [out]) := by
  intro j
  induction j with
  | zero =>
    intro s
    simp only [check_chunks]
    cases check_chunk_with cs s with
    | error e => rfl
    | ok r => rfl
  | succ j ih =>
    intro s
    rw [check_chunks]
    cases h1 : check_chunk_with cs s with
    | error e => simp [check_chunks, h1]
    | ok r =>
      obtain ⟨s1, o1⟩ := r
      simp only [ih s1]
      conv => rhs; rw [check_chunks]
      simp only [h1]
      cases h2 : check_chunks cs j s1 with
      | error e => rfl
      | ok r2 =>
        obtain ⟨s2, o2⟩ := r2
        simp only []
        cases h3 : check_chunk_with cs s2 with
        | error e => rfl
        | ok r3 => rfl

/-- The first `j` calls from a state whose cursor stays short of the end: the buffer
is untouched, the cursor has advanced by `j` chunks, and the calls have scanned and
reported the offsets passed over. -/
theorem check_chunks_before_end (cs : Nat) (hcs : cs % 257 = 0) (s : RAMcheck) (h : s.wf) :
    ∀ j, (j ≠ 0 → s.chunk_start + j * cs < s.buffer_size) →
    ∃ outs, check_chunks cs j s =
        .ok ({ s with chunk_start := s.chunk_start + j * cs,
                      pass_errors := s.pass_errors || !(reports outs.flatten).isEmpty }, outs) ∧
      outs.length = j ∧
      reports outs.flatten = reports_in s.buffer s.chunk_start s.chunk_start (j * cs) ∧
      scanned outs.flatten = List.range' s.chunk_start (j * cs) ∧
      (∀ i, i < j → ∃ out, outs[i]? = some out ∧
        ScanOf s.buffer s.chunk_start (s.chunk_start + i * cs)
          (s.chunk_start + (i + 1) * cs) out) := by
  intro j
  induction j with
  | zero =>
    intro _
    refine ⟨[], ?_, rfl, ?_, ?_, ?_⟩
    · simp [check_chunks, reports]
    · simp [reports, reports_in_zero]
    · simp [scanned, compared]
    · intro i hi; omega
  | succ j ih =>
    intro hj0
    have hmul : (j + 1) * cs = j * cs + cs := Nat.succ_mul j cs
    have hj := hj0 (by omega)
    rw [hmul] at hj
    obtain ⟨outs, hrun, hlen, hrep, hscn, hper⟩ := ih (fun _ => by omega)
    obtain ⟨out, hscan, hcall⟩ := check_chunk_with_spec cs
      { s with chunk_start := s.chunk_start + j * cs,
               pass_errors := s.pass_errors || !(reports outs.flatten).isEmpty } h
    have hlt : s.chunk_start + j * cs + cs < s.buffer_size := by omega
    simp only [hlt, if_true] at hcall
    have hmin : min (s.chunk_start + j * cs + cs) s.buffer_size = s.chunk_start + j * cs + cs := by
      omega
    simp only [hmin] at hscan
    have hjm := mul_mod_257 j cs hcs
    have hscan2 : ScanOf s.buffer s.chunk_start (s.chunk_start + j * cs)
        (s.chunk_start + j * cs + cs) out :=
      scanOf_phase _ _ _ _ _ _ hscan (by omega) (by simpa using hjm) (Nat.le_refl _)
    have hlen0 : s.chunk_start + j * cs + cs - (s.chunk_start + j * cs) = cs := by omega
    refine ⟨outs ++ [out], ?_, by simp [hlen], ?_, ?_, ?_⟩
    · rw [check_chunks_snoc, hrun]
      simp only [hcall, List.flatten_concat, reports_append, isEmpty_append_not, hmul,
        Nat.add_assoc]
    · rw [List.flatten_concat, reports_append, hrep, hscan2.reports_eq, hlen0, hmul,
        reports_in_add]
    · rw [List.flatten_concat, scanned_append, hscn, hscan2.scanned_eq, hlen0, hmul]
      have := List.range'_append s.chunk_start (j * cs) cs 1
      simp only [Nat.one_mul] at this
      rw [this, Nat.add_comm]
    · intro i hi
      by_cases hij : i < j
      · obtain ⟨o, ho, hso⟩ := hper i hij
        exact ⟨o, by rw [List.getElem?_append_left (by omega)]; exact ho, hso⟩
      · have e : i = j := by omega
        subst e
        refine ⟨out, ?_, ?_⟩
        · rw [List.getElem?_append_right (by omega)]; simp [hlen]
        · rw [hmul, ← Nat.add_assoc]; exact hscan2

/-! ## A whole pass -/

theorem pass_done_iff (out : List Event) : pass_done out = true ↔ summaries out ≠ [] := by
  induction out with
  | nil => simp [pass_done, summaries]
  | cons e out ih =>
    cases e <;> simp_all [pass_done, summaries]

theorem pass_done_false (out : List Event) (h : summaries out = []) : pass_done out = false := by
  cases hp : pass_done out with
  | false => rfl
  | true => exact absurd h ((pass_done_iff out).mp hp)

theorem summaries_flatten_nil (outs : List (List Event))
    (h : ∀ o ∈ outs, summaries o = []) : summaries outs.flatten = [] := by
  induction outs with
  | nil => simp [summaries]
  | cons o outs ih =>
    rw [List.flatten_cons, summaries_append, h o (List.mem_cons_self _ _),
      ih (fun o2 h2 => h o2 (List.mem_cons_of_mem _ h2))]
    rfl

theorem run_pass_of_check_chunks (cs : Nat) : ∀ (j : Nat) (s : RAMcheck) (fuel : Nat)
    (outs : List (List Event)) (sj s1 : RAMcheck) (out : List Event),
    check_chunks cs j s = .ok (sj, outs) → (∀ o ∈ outs, pass_done o = false) →
    check_chunk_with cs sj = .ok (s1, out) → pass_done out = true → j + 1 ≤ fuel →
    run_pass cs fuel s = .ok (some (s1, outs ++ [out])) := by
  intro j
  induction j with
  | zero =>
    intro s fuel outs sj s1 out hrun _ hcall hdone hfuel
    simp only [check_chunks, Except.ok.injEq, Prod.mk.injEq] at hrun
    obtain ⟨rfl, rfl⟩ := hrun
    obtain ⟨f, rfl⟩ : ∃ f, fuel = f + 1 := ⟨fuel - 1, by omega⟩
    simp [run_pass, hcall, hdone]
  | succ j ih =>
    intro s fuel outs sj s1 out hrun hnone hcall hdone hfuel
    obtain ⟨f, rfl⟩ : ∃ f, fuel = f + 1 := ⟨fuel - 1, by omega⟩
    rw [check_chunks] at hrun
    cases h1 : check_chunk_with cs s with
    | error e => simp [h1] at hrun
    | ok r =>
      obtain ⟨sa, oa⟩ := r
      simp only [h1] at hrun
      cases h2 : check_chunks cs j sa with
      | error e => simp [h2] at hrun
      | ok r2 =>
        obtain ⟨sb, ob⟩ := r2
        simp only [h2, Except.ok.injEq, Prod.mk.injEq] at hrun
        obtain ⟨rfl, rfl⟩ := hrun
        have hoa : pass_done oa = false := hnone oa (List.mem_cons_self _ _)
        have := ih sa f ob sb s1 out h2 (fun o ho => hnone o (List.mem_cons_of_mem _ ho))
          hcall hdone (by omega)
        simp [run_pass, h1, hoa, this]

/-- A pass from a state whose cursor is `k` whole chunks short of the last chunk: the
`k+1` calls scan and report the offsets from the cursor to the end of the buffer, the
last call prints the summary, and the checker is left at the start of the next pass,
refilled when the summary is FAIL. -/
theorem run_pass_spec (cs : Nat) (hcs : cs % 257 = 0) (s : RAMcheck) (h : s.wf) (k : Nat)
    (hk1 : k ≠ 0 → s.chunk_start + k * cs < s.buffer_size)
    (hk2 : s.buffer_size ≤ s.chunk_start + (k + 1) * cs) :
    ∃ outs,
      (∀ fuel, k + 1 ≤ fuel → run_pass cs fuel s = .ok (some
        ({ buffer_size := s.buffer_size,
           buffer := if (s.pass_errors || !(reports outs.flatten).isEmpty) = true
                     then healthy s.buffer_size else s.buffer,
           chunk_start := 0, chunk_index := 0, pass_errors := false }, outs))) ∧
      check_chunks cs (k + 1) s = .ok
        ({ buffer_size := s.buffer_size,
           buffer := if (s.pass_errors || !(reports outs.flatten).isEmpty) = true
                     then healthy s.buffer_size else s.buffer,
           chunk_start := 0, chunk_index := 0, pass_errors := false }, outs) ∧
      outs.length = k + 1 ∧
      reports outs.flatten =
        reports_in s.buffer s.chunk_start s.chunk_start (s.buffer_size - s.chunk_start) ∧
      scanned outs.flatten = List.range' s.chunk_start (s.buffer_size - s.chunk_start) ∧
      summaries outs.flatten = [s.pass_errors || !(reports outs.flatten).isEmpty] ∧
      (∀ i, i < k → ∃ out, outs[i]? = some out ∧
        ScanOf s.buffer s.chunk_start (s.chunk_start + i * cs)
          (s.chunk_start + (i + 1) * cs) out) ∧
      (∃ out, outs[k]? =
          some (out ++ [Event.pass (s.pass_errors || !(reports outs.flatten).isEmpty)]) ∧
        ScanOf s.buffer s.chunk_start (s.chunk_start + k * cs) s.buffer_size out) := by
  have hmul : (k + 1) * cs = k * cs + cs := Nat.succ_mul k cs
  rw [hmul] at hk2
  obtain ⟨outs, hrun, hlen, hrep, hscn, hper⟩ := check_chunks_before_end cs hcs s h k hk1
  obtain ⟨out, hscan, hcall⟩ := check_chunk_with_spec cs
    { s with chunk_start := s.chunk_start + k * cs,
             pass_errors := s.pass_errors || !(reports outs.flatten).isEmpty } h
  have hlt : ¬ (s.chunk_start + k * cs + cs < s.buffer_size) := by omega
  simp only [hlt, if_false, isEmpty_append_not] at hcall
  have hmin : min (s.chunk_start + k * cs + cs) s.buffer_size = s.buffer_size := by omega
  simp only [hmin] at hscan
  have hkm := mul_mod_257 k cs hcs
  have hscan2 : ScanOf s.buffer s.chunk_start (s.chunk_start + k * cs) s.buffer_size out :=
    scanOf_phase _ _ _ _ _ _ hscan (by omega) (by simpa using hkm) (Nat.le_refl _)
  have hkle : k * cs ≤ s.buffer_size - s.chunk_start := by
    by_cases hk0 : k = 0
    · subst hk0; simp
    · have := hk1 hk0; omega
  have hsum0 : summaries outs.flatten = [] := by
    apply summaries_flatten_nil
    intro o ho
    obtain ⟨i, hi⟩ := List.mem_iff_getElem?.mp ho
    have hik : i < k := by
      by_contra hge
      rw [List.getElem?_eq_none (by omega)] at hi
      exact absurd hi (by simp)
    obtain ⟨o2, ho2, hs2⟩ := hper i hik
    rw [hi] at ho2
    cases ho2
    exact hs2.summaries_eq
  have hrepout : reports (out ++ [Event.pass
      (s.pass_errors || !(reports outs.flatten ++ reports out).isEmpty)]) = reports out := by
    rw [reports_append]; simp [reports]
  have hflat : reports (outs ++ [out ++ [Event.pass
      (s.pass_errors || !(reports outs.flatten ++ reports out).isEmpty)]]).flatten =
      reports outs.flatten ++ reports out := by
    rw [List.flatten_concat, reports_append, hrepout]
  refine ⟨outs ++ [out ++ [Event.pass
      (s.pass_errors || !(reports outs.flatten ++ reports out).isEmpty)]], ?_, ?_, by simp [hlen],
    ?_, ?_, ?_, ?_, ?_⟩
  · intro fuel hf
    rw [hflat]
    refine run_pass_of_check_chunks cs k s fuel outs _ _ _ hrun ?_ hcall ?_ hf
    · intro o ho
      obtain ⟨i, hi⟩ := List.mem_iff_getElem?.mp ho
      have hik : i < k := by
        by_contra hge
        rw [List.getElem?_eq_none (by omega)] at hi
        exact absurd hi (by simp)
      obtain ⟨o2, ho2, hs2⟩ := hper i hik
      rw [hi] at ho2
      cases ho2
      exact pass_done_false _ hs2.summaries_eq
    · rw [pass_done_iff, summaries_append]; simp [summaries]
  · rw [hflat, check_chunks_snoc, hrun]
    simp only [hcall]
  · rw [hflat, hrep, hscan2.reports_eq, ← reports_in_add]
    congr 1; omega
  · rw [List.flatten_concat, scanned_append, scanned_append, hscn, hscan2.scanned_eq]
    have := List.range'_append s.chunk_start (k * cs)
      (s.buffer_size - (s.chunk_start + k * cs)) 1
    simp only [Nat.one_mul] at this
    simp only [scanned, compared, List.filterMap_cons, List.filterMap_nil, List.flatMap_nil,
      List.append_nil]
    rw [this]; congr 1; omega
  · rw [hflat, List.flatten_concat, summaries_append, summaries_append, hsum0,
      hscan2.summaries_eq]
    simp [summaries]
  · intro i hi
    obtain ⟨o, ho, hso⟩ := hper i hi
    exact ⟨o, by rw [List.getElem?_append_left (by omega)]; exact ho, hso⟩
  · refine ⟨out, ?_, hscan2⟩
    rw [hflat, List.getElem?_append_right (by omega)]
    simp [hlen]

/-! ## Freshly filled checkers -/

theorem CHUNK_SIZE_eq : CHUNK_SIZE = 1048560 := by decide

theorem CHUNK_SIZE_mod : CHUNK_SIZE % 257 = 0 := by decide

theorem fill_inv (s s0 : RAMcheck) (h : s.wf) (hfill : fill s = .ok s0) :
    s0 = { buffer_size := s.buffer_size, buffer := healthy s.buffer_size, chunk_start := 0,
           chunk_index := 0, pass_errors := false } := by
  rw [fill_eq s h] at hfill
  cases hfill
  rfl

theorem reports_in_healthy (n c lo len : Nat) (hc : c % 257 = 0) (hlo : c ≤ lo)
    (hhi : lo + len ≤ n) : reports_in (healthy n) c lo len = [] := by
  rw [reports_in_eq_nil]
  intro i h1 h2
  rw [healthy_getD n i (by omega)]
  congr 1
  simp only [PATTERN_SIZE]; omega

theorem reports_flatten_nil (outs : List (List Event)) (h : reports outs.flatten = []) :
    ∀ o ∈ outs, reports o = [] := by
  induction outs with
  | nil => intro o ho; simp at ho
  | cons a outs ih =>
    rw [List.flatten_cons, reports_append] at h
    obtain ⟨h1, h2⟩ := List.append_eq_nil.mp h
    intro o ho
    rcases List.mem_cons.mp ho with rfl | ho
    · exact h1
    · exact ih h2 o ho

/-- C1: for every buffer (its length is `N`), every cursor and every flag, `fill()`
returns, keeps the length, leaves `buffer[i] = pattern[i mod 257]` for every `i < N`,
sets `chunk_start` to 0 and clears `pass_errors`. -/
theorem fill_postcondition (buffer : List Nat) (chunk_start chunk_index : Nat)
    (pass_errors : Bool) :
    ∃ s1, fill ⟨buffer.length, buffer, chunk_start, chunk_index, pass_errors⟩ = .ok s1 ∧
      s1.buffer_size = buffer.length ∧ s1.buffer.length = buffer.length ∧
      (∀ i, i < buffer.length → s1.buffer[i]? = pattern[i % PATTERN_SIZE]?) ∧
      s1.chunk_start = 0 ∧ s1.pass_errors = false := by
  refine ⟨_, fill_eq ⟨buffer.length, buffer, chunk_start, chunk_index, pass_errors⟩ rfl,
    rfl, healthy_length _, ?_, rfl, rfl⟩
  intro i hi
  exact healthy_getElem? _ i hi

theorem calls_bounds (n : Nat) :
    ((n - 1) / CHUNK_SIZE ≠ 0 → 0 + (n - 1) / CHUNK_SIZE * CHUNK_SIZE < n) ∧
    n ≤ 0 + ((n - 1) / CHUNK_SIZE + 1) * CHUNK_SIZE := by
  rw [CHUNK_SIZE_eq]
  constructor
  · intro h; omega
  · omega

/-- The outputs of a pass that reports no byte mismatch hold no mismatch line at all. -/
theorem clean_outs (buf : List Nat) (c N cs k : Nat) (outs : List (List Event)) (f : Bool)
    (hlen : outs.length = k + 1)
    (hper : ∀ i, i < k → ∃ out, outs[i]? = some out ∧
      ScanOf buf c (c + i * cs) (c + (i + 1) * cs) out)
    (hlast : ∃ out, outs[k]? = some (out ++ [Event.pass f]) ∧ ScanOf buf c (c + k * cs) N out)
    (hnil : reports outs.flatten = []) :
    ∀ out ∈ outs, block_reports out = [] ∧ reports out = [] := by
  intro out hout
  have hr := reports_flatten_nil outs hnil out hout
  refine ⟨?_, hr⟩
  obtain ⟨i, hi⟩ := List.mem_iff_getElem?.mp hout
  have hik : i < k + 1 := by
    by_contra hge
    rw [List.getElem?_eq_none (by omega)] at hi
    exact absurd hi (by simp)
  by_cases hlt : i < k
  · obtain ⟨o, ho, hs⟩ := hper i hlt
    rw [hi] at ho; cases ho
    exact hs.blocks_iff.mpr hr
  · have e : i = k := by omega
    subst e
    obtain ⟨o, ho, hs⟩ := hlast
    rw [hi] at ho; cases ho
    rw [reports_append] at hr
    rw [block_reports_append, hs.blocks_iff.mpr (List.append_eq_nil.mp hr).1]
    simp [block_reports]

/-- C2: no false positives.  From a freshly filled checker with a buffer of `N ≥ 1`
bytes, calling `check_chunk()` until a pass completes takes `(N-1)/CHUNK_SIZE + 1` calls;
no call prints a block mismatch or a byte mismatch line, `pass_errors` is false after
every call, and the one summary printed is `Pass OK`. -/
theorem no_false_positives (s s0 : RAMcheck) (hwf : s.wf) (hN : 1 ≤ s.buffer_size)
    (hfill : fill s = .ok s0) :
    ∃ sf outs,
      (∀ fuel, (s.buffer_size - 1) / CHUNK_SIZE + 1 ≤ fuel →
        run_pass CHUNK_SIZE fuel s0 = .ok (some (sf, outs))) ∧
      outs.length = (s.buffer_size - 1) / CHUNK_SIZE + 1 ∧
      (∀ out ∈ outs, block_reports out = [] ∧ reports out = []) ∧
      summaries outs.flatten = [false] ∧
      (∀ j, j ≤ outs.length → ∃ sj outs_j,
        check_chunks CHUNK_SIZE j s0 = .ok (sj, outs_j) ∧ sj.pass_errors = false) := by
  have hs0 := fill_inv s s0 hwf hfill
  subst hs0
  have hwf0 : (⟨s.buffer_size, healthy s.buffer_size, 0, 0, false⟩ : RAMcheck).wf :=
    healthy_length _
  obtain ⟨hb1, hb2⟩ := calls_bounds s.buffer_size
  obtain ⟨outs, hrun, hchk, hlen, hrep, -, hsum, hper, hlast⟩ :=
    run_pass_spec CHUNK_SIZE CHUNK_SIZE_mod _ hwf0 ((s.buffer_size - 1) / CHUNK_SIZE) hb1 hb2
  have hnil : reports outs.flatten = [] := by
    rw [hrep]
    exact reports_in_healthy _ _ _ _ (by simp) (Nat.le_refl _) (by simp)
  simp only [hnil, List.isEmpty_nil, Bool.not_true, Bool.or_false, Bool.false_eq_true,
    if_false] at hrun hchk hsum hlast
  refine ⟨_, outs, hrun, hlen, ?_, hsum, ?_⟩
  · exact clean_outs _ _ _ _ _ outs _ hlen hper hlast hnil
  · intro j hj
    by_cases hjk : j = (s.buffer_size - 1) / CHUNK_SIZE + 1
    · subst hjk
      exact ⟨_, outs, hchk, rfl⟩
    · have hjlt : j ≤ (s.buffer_size - 1) / CHUNK_SIZE := by omega
      obtain ⟨outs_j, hj1, -, hj3, -, -⟩ :=
        check_chunks_before_end CHUNK_SIZE CHUNK_SIZE_mod _ hwf0 j (by
          intro _
          have := hb1
          simp only [CHUNK_SIZE_eq] at this hjlt ⊢
          omega)
      refine ⟨_, outs_j, hj1, ?_⟩
      have : reports_in (healthy s.buffer_size) 0 0 (j * CHUNK_SIZE) = [] := by
        apply reports_in_healthy _ _ _ _ (by simp) (Nat.le_refl _)
        simp only [CHUNK_SIZE_eq] at hjlt ⊢
        omega
      rw [this] at hj3
      simp [hj3]

/-- Witness of C2: a buffer of three bytes, filled, scanned in one call. -/
theorem no_false_positives_witness :
    (⟨3, [9, 9, 9], 7, 1, true⟩ : RAMcheck).wf ∧
    fill ⟨3, [9, 9, 9], 7, 1, true⟩ = .ok ⟨3, [0x55, 0x55, 0xaa], 0, 0, false⟩ ∧
    ∃ sf outs, run_pass CHUNK_SIZE 1 ⟨3, [0x55, 0x55, 0xaa], 0, 0, false⟩ = .ok (some (sf, outs)) ∧
      (∀ out ∈ outs, block_reports out = [] ∧ reports out = []) ∧
      summaries outs.flatten = [false] := by
  obtain ⟨sf, outs, h1, _, h3, h4, _⟩ :=
    no_false_positives ⟨3, [9, 9, 9], 7, 1, true⟩ ⟨3, [0x55, 0x55, 0xaa], 0, 0, false⟩
      (by decide) (by decide) (by decide)
  exact ⟨by decide, by decide, sf, outs, h1 1 (by decide), h3, h4⟩

/-! ## One corrupted byte -/

theorem getD_set_ne (l : List Nat) (k v i : Nat) (h : k ≠ i) :
    (l.set k v).getD i 0 = l.getD i 0 := by
  simp [List.getD_eq_getElem?_getD, List.getElem?_set_ne h]

theorem getD_set_self (l : List Nat) (k v : Nat) (h : k < l.length) :
    (l.set k v).getD k 0 = v := by
  simp [List.getD_eq_getElem?_getD, List.getElem?_set_self h]

theorem reports_in_single (n k v c lo len : Nat)
    (hc : c % 257 = 0) (hlo : c ≤ lo) (hhi : lo + len ≤ n) :
    reports_in ((healthy n).set k v) c lo len =
      if lo ≤ k ∧ k < lo + len then report_at ((healthy n).set k v) c k else [] := by
  have hclean : ∀ a m, c ≤ a → a + m ≤ n → (k < a ∨ a + m ≤ k) →
      reports_in ((healthy n).set k v) c a m = [] := by
    intro a m ha hm hout
    rw [reports_in_eq_nil]
    intro i h1 h2
    rw [getD_set_ne _ _ _ _ (by omega), healthy_getD n i (by omega)]
    congr 1
    simp only [PATTERN_SIZE]; omega
  by_cases hin : lo ≤ k ∧ k < lo + len
  · have e : len = (k - lo) + (1 + (len - (k - lo) - 1)) := by omega
    rw [if_pos hin, e, reports_in_add, reports_in_add, hclean lo (k - lo) hlo (by omega) (by omega),
      hclean (lo + (k - lo) + 1) _ (by omega) (by omega) (by omega)]
    have e2 : lo + (k - lo) = k := by omega
    simp [e2, reports_in]
  · rw [if_neg hin]
    exact hclean lo len hlo hhi (by omega)

theorem report_at_corrupt (n k v : Nat) (hk : k < n)
    (hv : v ≠ pattern.getD (k % PATTERN_SIZE) 0) :
    report_at ((healthy n).set k v) 0 k =
      [Event.mismatch k (pattern.getD (k % PATTERN_SIZE) 0) v
        (v ^^^ pattern.getD (k % PATTERN_SIZE) 0)] := by
  have hl : k < (healthy n).length := by rw [healthy_length]; exact hk
  unfold report_at
  simp only [Nat.sub_zero, getD_set_self _ _ _ hl]
  rw [if_pos hv]

theorem div_chunk_bounds (k : Nat) :
    k / CHUNK_SIZE * CHUNK_SIZE ≤ k ∧ k < k / CHUNK_SIZE * CHUNK_SIZE + CHUNK_SIZE := by
  rw [CHUNK_SIZE_eq]; omega

/-- C3: single-byte detection.  When byte `k < N` of a freshly filled buffer is
overwritten with a value `v` other than `pattern[k mod 257]`, the pass that follows
prints exactly one byte mismatch line, with index `k`, expected `pattern[k mod 257]`,
actual `v` and flip `v xor pattern[k mod 257]`; the line comes out of call number
`k / CHUNK_SIZE` of the pass, whichever chunk that is, and the summary is `Pass FAIL`. -/
theorem single_byte_detection (s s0 : RAMcheck) (hwf : s.wf) (hfill : fill s = .ok s0)
    (k v : Nat) (hk : k < s.buffer_size) (hv : v ≠ pattern.getD (k % PATTERN_SIZE) 0) :
    ∃ sf outs,
      (∀ fuel, (s.buffer_size - 1) / CHUNK_SIZE + 1 ≤ fuel →
        run_pass CHUNK_SIZE fuel (corrupt s0 k v) = .ok (some (sf, outs))) ∧
      reports outs.flatten =
        [Event.mismatch k (pattern.getD (k % PATTERN_SIZE) 0) v
          (v ^^^ pattern.getD (k % PATTERN_SIZE) 0)] ∧
      summaries outs.flatten = [true] ∧
      (∃ out, outs[k / CHUNK_SIZE]? = some out ∧
        reports out =
          [Event.mismatch k (pattern.getD (k % PATTERN_SIZE) 0) v
            (v ^^^ pattern.getD (k % PATTERN_SIZE) 0)]) := by
  have hs0 := fill_inv s s0 hwf hfill
  subst hs0
  have hwf0 : (corrupt ⟨s.buffer_size, healthy s.buffer_size, 0, 0, false⟩ k v).wf := by
    simp [wf, corrupt, healthy_length]
  obtain ⟨hb1, hb2⟩ := calls_bounds s.buffer_size
  obtain ⟨outs, hrun, -, hlen, hrep, -, hsum, hper, hlast⟩ :=
    run_pass_spec CHUNK_SIZE CHUNK_SIZE_mod _ hwf0 ((s.buffer_size - 1) / CHUNK_SIZE) hb1 hb2
  simp only [corrupt] at hrep hsum hper hlast hrun
  obtain ⟨hd1, hd2⟩ := div_chunk_bounds k
  have hrep2 : reports outs.flatten =
      [Event.mismatch k (pattern.getD (k % PATTERN_SIZE) 0) v
        (v ^^^ pattern.getD (k % PATTERN_SIZE) 0)] := by
    rw [hrep, reports_in_single _ _ _ _ _ _ (by simp) (Nat.le_refl _) (by omega),
      if_pos (by omega), report_at_corrupt _ _ _ hk hv]
  simp only [hrep2, List.isEmpty_cons, Bool.not_false, Bool.or_true, if_true] at hrun hsum hlast
  refine ⟨_, outs, hrun, hrep2, hsum, ?_⟩
  by_cases hlt : k / CHUNK_SIZE < (s.buffer_size - 1) / CHUNK_SIZE
  · obtain ⟨out, ho, hs⟩ := hper _ hlt
    refine ⟨out, ho, ?_⟩
    have hmul : (k / CHUNK_SIZE + 1) * CHUNK_SIZE = k / CHUNK_SIZE * CHUNK_SIZE + CHUNK_SIZE :=
      Nat.succ_mul _ _
    have hle : k / CHUNK_SIZE * CHUNK_SIZE + CHUNK_SIZE ≤ s.buffer_size := by
      have := hb1
      simp only [CHUNK_SIZE_eq] at this hlt ⊢
      omega
    rw [hs.reports_eq, reports_in_single _ _ _ _ _ _ (by simp) (by omega) (by omega),
      if_pos (by omega), report_at_corrupt _ _ _ hk hv]
  · have he : k / CHUNK_SIZE = (s.buffer_size - 1) / CHUNK_SIZE := by
      simp only [CHUNK_SIZE_eq] at hlt ⊢
      omega
    obtain ⟨out, ho, hs⟩ := hlast
    refine ⟨_, he ▸ ho, ?_⟩
    have hle : (s.buffer_size - 1) / CHUNK_SIZE * CHUNK_SIZE ≤ s.buffer_size := by
      simp only [CHUNK_SIZE_eq]; omega
    rw [reports_append, hs.reports_eq,
      reports_in_single _ _ _ _ _ _ (by simp) (by omega) (by omega),
      if_pos (by rw [← he]; omega), report_at_corrupt _ _ _ hk hv]
    simp [reports]

/-- Witness of C3: byte 1 of a filled buffer of three bytes flips from `0x55` to `0x54`. -/
theorem single_byte_detection_witness :
    (⟨3, [9, 9, 9], 7, 1, true⟩ : RAMcheck).wf ∧
    fill ⟨3, [9, 9, 9], 7, 1, true⟩ = .ok ⟨3, [0x55, 0x55, 0xaa], 0, 0, false⟩ ∧
    0x54 ≠ pattern.getD (1 % PATTERN_SIZE) 0 ∧
    ∃ sf outs,
      run_pass CHUNK_SIZE 1 (corrupt ⟨3, [0x55, 0x55, 0xaa], 0, 0, false⟩ 1 0x54) =
        .ok (some (sf, outs)) ∧
      reports outs.flatten = [Event.mismatch 1 0x55 0x54 1] ∧
      summaries outs.flatten = [true] := by
  obtain ⟨sf, outs, h1, h2, h3, _⟩ :=
    single_byte_detection ⟨3, [9, 9, 9], 7, 1, true⟩ ⟨3, [0x55, 0x55, 0xaa], 0, 0, false⟩
      (by decide) (by decide) 1 0x54 (by decide) (by decide)
  exact ⟨by decide, by decide, by decide, sf, outs, h1 1 (by decide), h2, h3⟩

/-! ## Coverage -/

theorem scanned_concat_pass (out : List Event) (f : Bool) :
    scanned (out ++ [Event.pass f]) = scanned out := by
  simp [scanned, compared]

theorem pass_done_concat_pass (out : List Event) (f : Bool) :
    pass_done (out ++ [Event.pass f]) = true := by
  simp [pass_done]

/-- C4: coverage.  From a freshly filled checker with `N ≥ 1` bytes, call number `j`
(counted from 0) starts with `chunk_start = j*CHUNK_SIZE` and hands to `memcmp` the
offsets from `j*CHUNK_SIZE` up to `min ((j+1)*CHUNK_SIZE) N`, each once; it prints the
pass summary exactly when that end is `N`, which is the call with
`j + 1 = (N-1)/CHUNK_SIZE + 1`; after it `chunk_start` is that end, or 0 when
the pass is complete; and the calls of the pass together scan `0, 1, ..., N-1`, each
offset once. -/
theorem coverage (s s0 : RAMcheck) (hwf : s.wf) (hN : 1 ≤ s.buffer_size)
    (hfill : fill s = .ok s0) :
    (∀ j, j < (s.buffer_size - 1) / CHUNK_SIZE + 1 →
      ∃ sj outs_j s1 out,
        check_chunks CHUNK_SIZE j s0 = .ok (sj, outs_j) ∧
        sj.chunk_start = j * CHUNK_SIZE ∧
        check_chunk sj = .ok (s1, out) ∧
        scanned out = List.range' (j * CHUNK_SIZE)
          (min ((j + 1) * CHUNK_SIZE) s.buffer_size - j * CHUNK_SIZE) ∧
        (pass_done out = true ↔ min ((j + 1) * CHUNK_SIZE) s.buffer_size = s.buffer_size) ∧
        (min ((j + 1) * CHUNK_SIZE) s.buffer_size = s.buffer_size ↔
          j + 1 = (s.buffer_size - 1) / CHUNK_SIZE + 1) ∧
        s1.chunk_start =
          if min ((j + 1) * CHUNK_SIZE) s.buffer_size = s.buffer_size then 0
          else min ((j + 1) * CHUNK_SIZE) s.buffer_size) ∧
    ∃ sf outs,
      (∀ fuel, (s.buffer_size - 1) / CHUNK_SIZE + 1 ≤ fuel →
        run_pass CHUNK_SIZE fuel s0 = .ok (some (sf, outs))) ∧
      outs.length = (s.buffer_size - 1) / CHUNK_SIZE + 1 ∧
      scanned outs.flatten = List.range s.buffer_size ∧
      sf.chunk_start = 0 := by
  have hs0 := fill_inv s s0 hwf hfill
  subst hs0
  have hwf0 : (⟨s.buffer_size, healthy s.buffer_size, 0, 0, false⟩ : RAMcheck).wf :=
    healthy_length _
  obtain ⟨hb1, hb2⟩ := calls_bounds s.buffer_size
  constructor
  · intro j hj
    have hmul : (j + 1) * CHUNK_SIZE = j * CHUNK_SIZE + CHUNK_SIZE := Nat.succ_mul _ _
    have hjlt : j * CHUNK_SIZE < s.buffer_size := by
      have := hb1
      simp only [CHUNK_SIZE_eq] at this hj ⊢
      omega
    obtain ⟨outs_j, hj1, -, -, -, -⟩ :=
      check_chunks_before_end CHUNK_SIZE CHUNK_SIZE_mod _ hwf0 j (by intro _; simpa using hjlt)
    obtain ⟨out, hscan, hcall⟩ := check_chunk_with_spec CHUNK_SIZE
      { buffer_size := s.buffer_size, buffer := healthy s.buffer_size,
        chunk_start := 0 + j * CHUNK_SIZE, chunk_index := 0,
        pass_errors := false || !(reports outs_j.flatten).isEmpty } hwf0
    simp only [Nat.zero_add] at hj1 hscan hcall
    rw [← hmul] at hscan hcall
    by_cases hlast : (j + 1) * CHUNK_SIZE < s.buffer_size
    · have hmin : min ((j + 1) * CHUNK_SIZE) s.buffer_size = (j + 1) * CHUNK_SIZE := by omega
      have hne : (j + 1) * CHUNK_SIZE ≠ s.buffer_size := by omega
      rw [if_pos hlast] at hcall
      rw [hmin] at hscan ⊢
      refine ⟨_, outs_j, _, out, hj1, rfl, hcall, hscan.scanned_eq, ?_, ?_, ?_⟩
      · rw [pass_done_false out hscan.summaries_eq]; simp [hne]
      · constructor
        · intro h; exact absurd h hne
        · intro h
          simp only [CHUNK_SIZE_eq] at hlast h ⊢
          omega
      · simp [hne]
    · have hmin : min ((j + 1) * CHUNK_SIZE) s.buffer_size = s.buffer_size := by omega
      rw [if_neg hlast] at hcall
      rw [hmin] at hscan ⊢
      refine ⟨_, outs_j, _, _, hj1, rfl, hcall, ?_, ?_, ?_, ?_⟩
      · rw [scanned_concat_pass]; exact hscan.scanned_eq
      · simp [pass_done_concat_pass]
      · simp only [true_iff]
        have := hb1
        simp only [CHUNK_SIZE_eq] at hlast hj this ⊢
        omega
      · simp
  · obtain ⟨outs, hrun, -, hlen, -, hscn, -, -, -⟩ :=
      run_pass_spec CHUNK_SIZE CHUNK_SIZE_mod _ hwf0 ((s.buffer_size - 1) / CHUNK_SIZE) hb1 hb2
    refine ⟨_, outs, hrun, hlen, ?_, rfl⟩
    rw [hscn, List.range_eq_range']
    simp

/-- Witness of C4: a filled buffer of three bytes is covered by one call. -/
theorem coverage_witness :
    (⟨3, [9, 9, 9], 7, 1, true⟩ : RAMcheck).wf ∧
    fill ⟨3, [9, 9, 9], 7, 1, true⟩ = .ok ⟨3, [0x55, 0x55, 0xaa], 0, 0, false⟩ ∧
    ∃ sf outs, run_pass CHUNK_SIZE 1 ⟨3, [0x55, 0x55, 0xaa], 0, 0, false⟩ = .ok (some (sf, outs)) ∧
      outs.length = 1 ∧ scanned outs.flatten = List.range 3 ∧ sf.chunk_start = 0 := by
  obtain ⟨_, sf, outs, h1, h2, h3, h4⟩ :=
    coverage ⟨3, [9, 9, 9], 7, 1, true⟩ ⟨3, [0x55, 0x55, 0xaa], 0, 0, false⟩
      (by decide) (by decide) (by decide)
  exact ⟨by decide, by decide, sf, outs, h1 1 (by decide), h2, h3, h4⟩

/-! ## After a failed pass -/

theorem mem_pass_summaries (out : List Event) (f : Bool) (h : Event.pass f ∈ out) :
    f ∈ summaries out := by
  simp only [summaries, List.mem_filterMap]
  exact ⟨Event.pass f, h, rfl⟩

/-- What a call that prints `Pass FAIL` leaves behind. -/
theorem check_chunk_with_fail (cs : Nat) (s s1 : RAMcheck) (out : List Event) (hwf : s.wf)
    (hcall : check_chunk_with cs s = .ok (s1, out)) (hfail : Event.pass true ∈ out) :
    s1 = { buffer_size := s.buffer_size, buffer := healthy s.buffer_size, chunk_start := 0,
           chunk_index := 0, pass_errors := false } := by
  obtain ⟨out0, hscan, hspec⟩ := check_chunk_with_spec cs s hwf
  rw [hcall] at hspec
  by_cases hlt : s.chunk_start + cs < s.buffer_size
  · rw [if_pos hlt] at hspec
    simp only [Except.ok.injEq, Prod.mk.injEq] at hspec
    obtain ⟨-, rfl⟩ := hspec
    have := mem_pass_summaries _ _ hfail
    rw [hscan.summaries_eq] at this
    simp at this
  · rw [if_neg hlt] at hspec
    simp only [Except.ok.injEq, Prod.mk.injEq] at hspec
    obtain ⟨rfl, rfl⟩ := hspec
    have hflag : (s.pass_errors || !(reports out0).isEmpty) = true := by
      rcases List.mem_append.mp hfail with h | h
      · have := mem_pass_summaries _ _ h
        rw [hscan.summaries_eq] at this
        simp at this
      · simp only [List.mem_singleton, Event.pass.injEq] at h
        exact h.symm
    simp [hflag]

/-- C5: self-healing.  Whenever a `check_chunk()` call prints `Pass FAIL`, the state it
leaves is the state `fill()` gives (`buffer[i] = pattern[i mod 257]` for all `i < N`,
`chunk_start = 0`, flag false), and the pass that follows on the unaltered buffer prints
no block or byte mismatch line, prints `Pass OK`, and leaves that same state. -/
theorem self_healing (s s1 : RAMcheck) (out : List Event) (hwf : s.wf)
    (hcall : check_chunk s = .ok (s1, out)) (hfail : Event.pass true ∈ out) :
    fill s = .ok s1 ∧ s1.buffer.length = s.buffer_size ∧
    (∀ i, i < s.buffer_size → s1.buffer[i]? = pattern[i % PATTERN_SIZE]?) ∧
    s1.chunk_start = 0 ∧ s1.pass_errors = false ∧
    ∃ outs,
      (∀ fuel, (s.buffer_size - 1) / CHUNK_SIZE + 1 ≤ fuel →
        run_pass CHUNK_SIZE fuel s1 = .ok (some (s1, outs))) ∧
      (∀ o ∈ outs, block_reports o = [] ∧ reports o = []) ∧
      summaries outs.flatten = [false] := by
  have hs1 := check_chunk_with_fail CHUNK_SIZE s s1 out hwf hcall hfail
  subst hs1
  have hwf0 : (⟨s.buffer_size, healthy s.buffer_size, 0, 0, false⟩ : RAMcheck).wf :=
    healthy_length _
  refine ⟨fill_eq s hwf, healthy_length _, fun i hi => healthy_getElem? _ i hi, rfl, rfl, ?_⟩
  obtain ⟨hb1, hb2⟩ := calls_bounds s.buffer_size
  obtain ⟨outs, hrun, -, hlen, hrep, -, hsum, hper, hlast⟩ :=
    run_pass_spec CHUNK_SIZE CHUNK_SIZE_mod _ hwf0 ((s.buffer_size - 1) / CHUNK_SIZE) hb1 hb2
  have hnil : reports outs.flatten = [] := by
    rw [hrep]
    exact reports_in_healthy _ _ _ _ (by simp) (Nat.le_refl _) (by simp)
  simp only [hnil, List.isEmpty_nil, Bool.not_true, Bool.or_false, Bool.false_eq_true,
    if_false] at hrun hsum hlast
  exact ⟨outs, hrun, clean_outs _ _ _ _ _ outs _ hlen hper hlast hnil, hsum⟩

/-- Witness of C5: a buffer of three bytes with two flipped bits fails its pass, is
refilled, and passes. -/
theorem self_healing_witness :
    (⟨3, [0x55, 0x54, 0xa8], 0, 0, false⟩ : RAMcheck).wf ∧
    check_chunk ⟨3, [0x55, 0x54, 0xa8], 0, 0, false⟩ =
      .ok (⟨3, [0x55, 0x55, 0xaa], 0, 0, false⟩,
        [.compare 0 3, .block 0 3, .mismatch 1 0x55 0x54 1, .mismatch 2 0xaa 0xa8 2,
         .pass true]) ∧
    fill ⟨3, [0x55, 0x54, 0xa8], 0, 0, false⟩ = .ok ⟨3, [0x55, 0x55, 0xaa], 0, 0, false⟩ ∧
    ∃ outs, run_pass CHUNK_SIZE 1 ⟨3, [0x55, 0x55, 0xaa], 0, 0, false⟩ =
        .ok (some (⟨3, [0x55, 0x55, 0xaa], 0, 0, false⟩, outs)) ∧
      summaries outs.flatten = [false] := by
  obtain ⟨h1, _, _, _, _, outs, h2, _, h3⟩ :=
    self_healing ⟨3, [0x55, 0x54, 0xa8], 0, 0, false⟩ ⟨3, [0x55, 0x55, 0xaa], 0, 0, false⟩
      [.compare 0 3, .block 0 3, .mismatch 1 0x55 0x54 1, .mismatch 2 0xaa 0xa8 2, .pass true]
      (by decide) (by decide) (by decide)
  exact ⟨by decide, by decide, h1, outs, h2 1 (by decide), h3⟩

/-! ## Chunking transparency -/

theorem calls_bounds_with (n cs : Nat) (hpos : 0 < cs) :
    ((n - 1) / cs ≠ 0 → 0 + (n - 1) / cs * cs < n) ∧ n ≤ 0 + ((n - 1) / cs + 1) * cs := by
  have h1 := Nat.div_mul_le_self (n - 1) cs
  have h2 := Nat.lt_mul_div_succ (n - 1) hpos
  rw [Nat.mul_comm] at h2
  constructor
  · intro hk
    have hn : n ≠ 0 := by
      intro h0
      subst h0
      simp at hk
    omega
  · omega

/-- C6: chunking transparency.  Take any buffer at the start of a pass and any chunk
size `cs` that is a positive multiple of 257.  The pass run with chunk size `cs`
(`(N-1)/cs + 1` calls), the pass run with `CHUNK_SIZE` (`(N-1)/CHUNK_SIZE + 1` calls)
and the single call with a chunk size `cs0 ≥ N` that scans the whole buffer print the
same byte mismatch lines in the same order, namely those of the offsets `i < N` with
`buffer[i] ≠ pattern[i mod 257]`, print the same summary, and leave the same state. -/
theorem chunking_transparency (s : RAMcheck) (hwf : s.wf) (hstart : s.chunk_start = 0)
    (hflag : s.pass_errors = false) (cs cs0 : Nat) (hpos : 0 < cs)
    (hmul : cs % PATTERN_SIZE = 0) (hwhole : s.buffer_size ≤ cs0) :
    ∃ s1 out outs outs1,
      check_chunk_with cs0 s = .ok (s1, out) ∧
      (∀ fuel, (s.buffer_size - 1) / cs + 1 ≤ fuel →
        run_pass cs fuel s = .ok (some (s1, outs))) ∧
      outs.length = (s.buffer_size - 1) / cs + 1 ∧
      (∀ fuel, (s.buffer_size - 1) / CHUNK_SIZE + 1 ≤ fuel →
        run_pass CHUNK_SIZE fuel s = .ok (some (s1, outs1))) ∧
      outs1.length = (s.buffer_size - 1) / CHUNK_SIZE + 1 ∧
      reports out = reports_in s.buffer 0 0 s.buffer_size ∧
      reports outs.flatten = reports out ∧
      reports outs1.flatten = reports out ∧
      summaries out = [!(reports out).isEmpty] ∧
      summaries outs.flatten = summaries out ∧
      summaries outs1.flatten = summaries out := by
  obtain ⟨ha1, ha2⟩ := calls_bounds_with s.buffer_size cs hpos
  obtain ⟨hb1, hb2⟩ := calls_bounds s.buffer_size
  obtain ⟨outs, hrun, -, hlen, hrep, -, hsum, -, -⟩ :=
    run_pass_spec cs hmul s hwf ((s.buffer_size - 1) / cs)
      (by rw [hstart]; exact ha1) (by rw [hstart]; exact ha2)
  obtain ⟨outs1, hrun1, -, hlen1, hrep1, -, hsum1, -, -⟩ :=
    run_pass_spec CHUNK_SIZE CHUNK_SIZE_mod s hwf ((s.buffer_size - 1) / CHUNK_SIZE)
      (by rw [hstart]; exact hb1) (by rw [hstart]; exact hb2)
  obtain ⟨out0, hscan, hcall⟩ := check_chunk_with_spec cs0 s hwf
  have hnlt : ¬ (s.chunk_start + cs0 < s.buffer_size) := by omega
  have hmin : min (s.chunk_start + cs0) s.buffer_size = s.buffer_size := by omega
  rw [if_neg hnlt] at hcall
  rw [hmin] at hscan
  have hr0 := hscan.reports_eq
  simp only [hstart, hflag, Nat.sub_zero, Bool.false_or] at hrun hrep hsum hrun1 hrep1 hsum1 hr0 hcall
  have hout : reports (out0 ++ [Event.pass (!(reports out0).isEmpty)]) = reports out0 := by
    rw [reports_append]; simp [reports]
  have e1 : reports outs.flatten = reports out0 := by rw [hrep, hr0]
  have e2 : reports outs1.flatten = reports out0 := by rw [hrep1, hr0]
  rw [e1] at hrun hsum
  rw [e2] at hrun1 hsum1
  refine ⟨_, _, outs, outs1, hcall, hrun, hlen, hrun1, hlen1, ?_, ?_, ?_, ?_, ?_, ?_⟩
  · rw [hout, hr0]
  · rw [hout, e1]
  · rw [hout, e2]
  · rw [hout, summaries_append, hscan.summaries_eq]; rfl
  · rw [hsum, summaries_append, hscan.summaries_eq]; rfl
  · rw [hsum1, summaries_append, hscan.summaries_eq]; rfl

/-- Witness of C6: a buffer of three bytes with two flipped bits, scanned with chunk
sizes 257, `CHUNK_SIZE` and 514. -/
theorem chunking_transparency_witness :
    (⟨3, [0x55, 0x54, 0xa8], 0, 0, false⟩ : RAMcheck).wf ∧
    ∃ s1 out outs outs1,
      check_chunk_with 514 ⟨3, [0x55, 0x54, 0xa8], 0, 0, false⟩ = .ok (s1, out) ∧
      run_pass 257 1 ⟨3, [0x55, 0x54, 0xa8], 0, 0, false⟩ = .ok (some (s1, outs)) ∧
      run_pass CHUNK_SIZE 1 ⟨3, [0x55, 0x54, 0xa8], 0, 0, false⟩ = .ok (some (s1, outs1)) ∧
      reports outs.flatten = reports out ∧
      reports outs1.flatten = reports out ∧
      summaries outs.flatten = summaries out ∧
      summaries outs1.flatten = summaries out := by
  obtain ⟨s1, out, outs, outs1, h1, h2, _, h3, _, _, h4, h5, _, h6, h7⟩ :=
    chunking_transparency ⟨3, [0x55, 0x54, 0xa8], 0, 0, false⟩ (by decide) (by decide)
      (by decide) 257 514 (by decide) (by decide) (by decide)
  exact ⟨by decide, s1, out, outs, outs1, h1, h2 1 (by decide), h3 1 (by decide), h4, h5, h6, h7⟩

/-! ## Construction -/

theorem construct_eq (avail : Nat) (mb : Int) :
    construct avail mb =
      if ((mb * (CHECK_PER_MB : Int)) % 2 ^ 64).toNat > vector_max_size then
        .error .length_error
      else if ((mb * (CHECK_PER_MB : Int)) % 2 ^ 64).toNat ≤ avail then
        .ok { buffer_size := ((mb * (CHECK_PER_MB : Int)) % 2 ^ 64).toNat,
              buffer := healthy ((mb * (CHECK_PER_MB : Int)) % 2 ^ 64).toNat,
              chunk_start := 0, chunk_index := 0, pass_errors := false }
      else .error .bad_alloc := by
  unfold construct vector_new
  by_cases hmax : ((mb * (CHECK_PER_MB : Int)) % 2 ^ 64).toNat > vector_max_size
  · simp only [hmax, if_true]
  · by_cases h : ((mb * (CHECK_PER_MB : Int)) % 2 ^ 64).toNat ≤ avail
    · simp only [hmax, h, if_true, if_false]
      rw [fill_eq _ (by simp [wf])]
    · simp only [hmax, h, if_false]

theorem construct_ok_eq (avail : Nat) (mb : Int) (sc : RAMcheck)
    (h : construct avail mb = .ok sc) :
    sc = ⟨((mb * (CHECK_PER_MB : Int)) % 2 ^ 64).toNat,
          healthy ((mb * (CHECK_PER_MB : Int)) % 2 ^ 64).toNat, 0, 0, false⟩ := by
  rw [construct_eq] at h
  split at h
  · cases h
  · split at h
    · cases h; rfl
    · cases h

theorem vector_max_size_eq : vector_max_size = 9223372036854775807 := by decide

theorem size_of_positive (mb : Int) (hpos : 0 < mb) (hrep : mb * 1048576 < 2 ^ 63) :
    ((mb * (CHECK_PER_MB : Int)) % 2 ^ 64).toNat = mb.toNat * 1048576 := by
  have : (CHECK_PER_MB : Int) = 1048576 := by decide
  rw [this]
  omega

theorem size_of_negative (mb : Int) (hneg : mb < 0) (hlo : -(2 ^ 43) ≤ mb) :
    ((mb * (CHECK_PER_MB : Int)) % 2 ^ 64).toNat = 2 ^ 64 - mb.natAbs * 1048576 := by
  have : (CHECK_PER_MB : Int) = 1048576 := by decide
  rw [this]
  omega


/-- C7, as the claim states it, fails: for `mb = 0` the constructor does not fail; it
returns a checker whose buffer is empty. -/
theorem construct_zero_succeeds :
    construct (2 ^ 32) 0 = .ok ⟨0, [], 0, 0, false⟩ := by decide

/-- C7, amended: the constructor checks no size.  For `mb = 0` it returns the checker
with the empty buffer (`N = 0`, `chunk_start = 0`, flag false), on which every
`check_chunk()` call prints `Pass OK`.  For `-2^43 ≤ mb < 0` the length it asks for is
`mb*1048576` as a `size_t`, that is `2^64 - |mb|*1048576 ≥ 2^63`, above the
`max_size()` of the vector: construction fails with `std::length_error`, whatever
memory there is, and gives no checker. -/
theorem construct_nonpositive (avail : Nat) (mb : Int) (hle : mb ≤ 0) (hlo : -(2 ^ 43) ≤ mb) :
    (mb = 0 → construct avail mb = .ok ⟨0, [], 0, 0, false⟩ ∧
      check_chunk ⟨0, [], 0, 0, false⟩ = .ok (⟨0, [], 0, 0, false⟩, [Event.pass false])) ∧
    (mb < 0 → 2 ^ 63 ≤ 2 ^ 64 - mb.natAbs * 1048576 ∧
      construct avail mb = .error .length_error ∧
      ∀ s, construct avail mb ≠ .ok s) := by
  constructor
  · intro h0
    subst h0
    refine ⟨?_, by decide⟩
    rw [construct_eq]
    have : (((0 : Int) * (CHECK_PER_MB : Int)) % 2 ^ 64).toNat = 0 := by decide
    rw [this, if_neg (by decide), if_pos (Nat.zero_le _)]
    simp [healthy]
  · intro hneg
    have hsize := size_of_negative mb hneg hlo
    have hfail : construct avail mb = .error .length_error := by
      rw [construct_eq, hsize, if_pos (by rw [vector_max_size_eq]; omega)]
    refine ⟨by omega, hfail, ?_⟩
    intro s hs
    rw [hfail] at hs
    cases hs

/-- Witness of C7, amended: `mb = -1` with an allocator that grants every request. -/
theorem construct_nonpositive_witness :
    ((-1 : Int) ≤ 0) ∧ (-(2 ^ 43) ≤ (-1 : Int)) ∧
    construct (2 ^ 64) (-1) = .error .length_error := by
  have h := construct_nonpositive (2 ^ 64) (-1) (by decide) (by decide)
  exact ⟨by decide, by decide, (h.2 (by decide)).2.1⟩

/-- C8: construction postcondition.  For every `mb > 0` with `mb*1048576` representable
as a `long`, the constructor asks for `N = mb*1048576` bytes; when the allocator grants
them the checker it returns has `buffer_size = N`, a buffer of `N` bytes with
`buffer[i] = pattern[i mod 257]` for all `i < N`, `chunk_start = 0` and the flag false
(and when it does not, construction fails with the allocation). -/
theorem construct_postcondition (avail : Nat) (mb : Int) (hpos : 0 < mb)
    (hrep : mb * 1048576 < 2 ^ 63) :
    (mb.toNat * 1048576 ≤ avail →
      ∃ s, construct avail mb = .ok s ∧ s.buffer_size = mb.toNat * 1048576 ∧
        s.buffer.length = mb.toNat * 1048576 ∧
        (∀ i, i < mb.toNat * 1048576 → s.buffer[i]? = pattern[i % PATTERN_SIZE]?) ∧
        s.chunk_start = 0 ∧ s.pass_errors = false) ∧
    (avail < mb.toNat * 1048576 → construct avail mb = .error .bad_alloc) := by
  have hsize := size_of_positive mb hpos hrep
  have hmax : ¬ (mb.toNat * 1048576 > vector_max_size) := by
    rw [vector_max_size_eq]; omega
  constructor
  · intro h
    rw [construct_eq, hsize, if_neg hmax, if_pos h]
    exact ⟨_, rfl, rfl, healthy_length _, fun i hi => healthy_getElem? _ i hi, rfl, rfl⟩
  · intro h
    rw [construct_eq, hsize, if_neg hmax, if_neg (by omega)]

/-- Witness of C8: one megabyte, with an allocator that grants up to `2^30` bytes. -/
theorem construct_postcondition_witness :
    ((0 : Int) < 1) ∧ ((1 : Int) * 1048576 < 2 ^ 63) ∧
    ∃ s, construct (2 ^ 30) 1 = .ok s ∧ s.buffer_size = 1048576 ∧
      s.buffer.length = 1048576 ∧
      (∀ i, i < 1048576 → s.buffer[i]? = pattern[i % PATTERN_SIZE]?) ∧
      s.chunk_start = 0 ∧ s.pass_errors = false := by
  have h := construct_postcondition (2 ^ 30) 1 (by decide) (by decide)
  exact ⟨by decide, by decide, h.1 (by decide)⟩

/-! ## Reachable states -/

theorem construct_inv (avail : Nat) (mb : Int) (s0 : RAMcheck)
    (h : construct avail mb = .ok s0) : s0.wf ∧ s0.pass_errors = false := by
  rw [construct_ok_eq avail mb s0 h]
  exact ⟨healthy_length _, rfl⟩

theorem step_inv (t t1 : Tracked) (a : Action)
    (hinv : t.s.wf ∧ t.s.pass_errors = !t.reported.isEmpty) (h : t.step a = .ok t1) :
    t1.s.wf ∧ t1.s.pass_errors = !t1.reported.isEmpty := by
  obtain ⟨hwf, hflag⟩ := hinv
  cases a with
  | fill =>
    simp only [Tracked.step, fill_eq t.s hwf] at h
    cases h
    exact ⟨healthy_length _, rfl⟩
  | corrupt k v =>
    simp only [Tracked.step] at h
    cases h
    exact ⟨by simp only [wf, corrupt, List.length_set]; exact hwf, hflag⟩
  | check_chunk =>
    obtain ⟨out, hscan, hcall⟩ := check_chunk_with_spec CHUNK_SIZE t.s hwf
    simp only [Tracked.step, check_chunk, hcall] at h
    by_cases hlt : t.s.chunk_start + CHUNK_SIZE < t.s.buffer_size
    · simp only [hlt, if_true, pass_done_false out hscan.summaries_eq] at h
      cases h
      refine ⟨hwf, ?_⟩
      simp only [hflag, Bool.false_eq_true, if_false]
      cases t.reported <;> cases reports out <;> rfl
    · simp only [hlt, if_false, pass_done_concat_pass] at h
      cases h
      refine ⟨?_, rfl⟩
      simp only [wf]
      split
      · exact healthy_length _
      · exact hwf

theorem steps_inv : ∀ (acts : List Action) (t t1 : Tracked),
    (t.s.wf ∧ t.s.pass_errors = !t.reported.isEmpty) → t.steps acts = .ok t1 →
    t1.s.wf ∧ t1.s.pass_errors = !t1.reported.isEmpty := by
  intro acts
  induction acts with
  | nil =>
    intro t t1 hinv h
    simp only [Tracked.steps] at h
    cases h
    exact hinv
  | cons a acts ih =>
    intro t t1 hinv h
    simp only [Tracked.steps] at h
    cases hs : t.step a with
    | error e => simp [hs] at h
    | ok t2 =>
      simp only [hs] at h
      exact ih t2 t1 (step_inv t t2 a hinv hs) h

/-- In a reachable state the class invariant holds and the flag is raised exactly when
a byte mismatch line has been printed since the pass began. -/
theorem reachable_inv (t : Tracked) (h : Reachable t) :
    t.s.wf ∧ t.s.pass_errors = !t.reported.isEmpty := by
  obtain ⟨avail, mb, s0, acts, hc, hs⟩ := h
  obtain ⟨hwf, hflag⟩ := construct_inv avail mb s0 hc
  exact steps_inv acts ⟨s0, []⟩ t ⟨hwf, by simp [hflag]⟩ hs

/-- C9: pass-boundary bookkeeping.  In every reachable state, a `check_chunk()` call
whose computed end `min (chunk_start + CHUNK_SIZE) N` reaches `N` prints, as its last
line and its only summary, `Pass FAIL` when a byte mismatch line was printed since the
pass began (before this call or in it) and `Pass OK` when none was; on FAIL the state
it leaves is the one `fill()` gives, on OK the buffer is as it was; either way
`chunk_start` is 0 and the flag is false after the call. -/
theorem pass_boundary (t : Tracked) (hreach : Reachable t)
    (hend : t.s.buffer_size ≤ min (t.s.chunk_start + CHUNK_SIZE) t.s.buffer_size) :
    ∃ s1 out0 fail,
      check_chunk t.s = .ok (s1, out0 ++ [Event.pass fail]) ∧
      summaries out0 = [] ∧
      (fail = true ↔ t.reported ++ reports out0 ≠ []) ∧
      (fail = true → fill t.s = .ok s1) ∧
      (fail = false → s1 = { t.s with chunk_start := 0, chunk_index := 0 }) ∧
      s1.chunk_start = 0 ∧ s1.pass_errors = false := by
  obtain ⟨hwf, hflag⟩ := reachable_inv t hreach
  obtain ⟨out, hscan, hcall⟩ := check_chunk_with_spec CHUNK_SIZE t.s hwf
  have hnlt : ¬ (t.s.chunk_start + CHUNK_SIZE < t.s.buffer_size) := by omega
  rw [if_neg hnlt] at hcall
  refine ⟨_, out, _, hcall, hscan.summaries_eq, ?_, ?_, ?_, rfl, rfl⟩
  · rw [hflag]
    cases t.reported <;> cases reports out <;> simp
  · intro hf
    rw [fill_eq t.s hwf, hf]
    rfl
  · intro hf
    have hp : t.s.pass_errors = false := by
      cases hp : t.s.pass_errors
      · rfl
      · rw [hp] at hf; simp at hf
    rw [hf]
    simp only [Bool.false_eq_true, if_false]
    rw [← hp]

/-- A freshly constructed checker with more than one chunk, after its first
`check_chunk()` call. -/
theorem reachable_after_first_call (avail : Nat) (mb : Int) (n : Nat)
    (hcon : construct avail mb = .ok ⟨n, healthy n, 0, 0, false⟩) (hn : CHUNK_SIZE < n) :
    Reachable ⟨⟨n, healthy n, CHUNK_SIZE, 0, false⟩, []⟩ := by
  have hwf0 : (⟨n, healthy n, 0, 0, false⟩ : RAMcheck).wf := healthy_length _
  obtain ⟨out, hscan, hcall⟩ := check_chunk_with_spec CHUNK_SIZE _ hwf0
  have hmin : min (0 + CHUNK_SIZE) n = CHUNK_SIZE := by omega
  simp only [hmin] at hscan
  have hnil : reports out = [] := by
    rw [hscan.reports_eq]
    exact reports_in_healthy _ _ _ _ (by simp) (Nat.le_refl _) (by omega)
  have hlt : 0 + CHUNK_SIZE < n := by omega
  simp only [hlt, if_true, hnil] at hcall
  refine ⟨avail, mb, ⟨n, healthy n, 0, 0, false⟩, [Action.check_chunk], hcon, ?_⟩
  simp only [Tracked.steps, Tracked.step, check_chunk, hcall,
    pass_done_false out hscan.summaries_eq, hnil]
  simp

theorem construct_one_megabyte :
    construct (2 ^ 30) 1 = .ok ⟨1048576, healthy 1048576, 0, 0, false⟩ := by
  have hsz : (((1 : Int) * (CHECK_PER_MB : Int)) % 2 ^ 64).toNat = 1048576 := by decide
  rw [construct_eq, hsz, if_neg (by decide), if_pos (by decide)]

/-- Witness of C9: the checker for one megabyte after its first call; its second call
ends the pass. -/
theorem pass_boundary_witness :
    Reachable ⟨⟨1048576, healthy 1048576, CHUNK_SIZE, 0, false⟩, []⟩ ∧
    ∃ s1 out0 fail,
      check_chunk ⟨1048576, healthy 1048576, CHUNK_SIZE, 0, false⟩ =
        .ok (s1, out0 ++ [Event.pass fail]) ∧
      (fail = true ↔ ([] : List Event) ++ reports out0 ≠ []) ∧
      s1.chunk_start = 0 ∧ s1.pass_errors = false := by
  have hr := reachable_after_first_call (2 ^ 30) 1 1048576 construct_one_megabyte (by decide)
  obtain ⟨s1, out0, fail, h1, _, h3, _, _, h6, h7⟩ :=
    pass_boundary ⟨⟨1048576, healthy 1048576, CHUNK_SIZE, 0, false⟩, []⟩ hr (by decide)
  exact ⟨hr, s1, out0, fail, h1, h3, h6, h7⟩

/-! ## The buffer is only written by fill -/

theorem found_mismatch_frame (s s1 : RAMcheck) (b i : Nat) (out : List Event)
    (h : found_mismatch s b i = .ok (s1, out)) :
    s1.buffer = s.buffer ∧ s1.buffer_size = s.buffer_size := by
  unfold found_mismatch at h
  cases h1 : read pattern i with
  | error e => simp [h1] at h
  | ok should =>
    cases h2 : read s.buffer b with
    | error e => simp [h1, h2] at h
    | ok had =>
      simp only [h1, h2, Except.ok.injEq, Prod.mk.injEq] at h
      obtain ⟨rfl, -⟩ := h
      exact ⟨rfl, rfl⟩

theorem found_mismatch_block_loop_frame (bs n : Nat) : ∀ (fuel index : Nat)
    (s s1 : RAMcheck) (out : List Event),
    found_mismatch_block_loop bs n fuel index s = .ok (s1, out) →
    s1.buffer = s.buffer ∧ s1.buffer_size = s.buffer_size := by
  intro fuel
  induction fuel with
  | zero =>
    intro index s s1 out h
    by_cases hlt : index < n
    · simp [found_mismatch_block_loop, hlt] at h
    · simp only [found_mismatch_block_loop, hlt, if_false, Except.ok.injEq, Prod.mk.injEq] at h
      obtain ⟨rfl, -⟩ := h
      exact ⟨rfl, rfl⟩
  | succ fuel ih =>
    intro index s s1 out h
    by_cases hlt : index < n
    · simp only [found_mismatch_block_loop, hlt, if_true] at h
      cases h1 : read s.buffer (bs + index) with
      | error e => simp [h1] at h
      | ok x =>
        cases h2 : read pattern index with
        | error e => simp [h1, h2] at h
        | ok y =>
          simp only [h1, h2] at h
          cases h3 : (if x ≠ y then found_mismatch s (bs + index) index else .ok (s, [])) with
          | error e => simp [h3] at h
          | ok r =>
            obtain ⟨sa, oa⟩ := r
            simp only [h3] at h
            have hsa : sa.buffer = s.buffer ∧ sa.buffer_size = s.buffer_size := by
              by_cases hxy : x ≠ y
              · rw [if_pos hxy] at h3
                exact found_mismatch_frame _ _ _ _ _ h3
              · rw [if_neg hxy] at h3
                cases h3
                exact ⟨rfl, rfl⟩
            cases h4 : found_mismatch_block_loop bs n fuel (index + 1) sa with
            | error e => simp [h4] at h
            | ok r2 =>
              obtain ⟨sb, ob⟩ := r2
              simp only [h4, Except.ok.injEq, Prod.mk.injEq] at h
              obtain ⟨rfl, -⟩ := h
              obtain ⟨e1, e2⟩ := ih _ _ _ _ h4
              exact ⟨e1.trans hsa.1, e2.trans hsa.2⟩
    · simp only [found_mismatch_block_loop, hlt, if_false, Except.ok.injEq, Prod.mk.injEq] at h
      obtain ⟨rfl, -⟩ := h
      exact ⟨rfl, rfl⟩

theorem found_mismatch_block_frame (s s1 : RAMcheck) (b n : Nat) (out : List Event)
    (h : found_mismatch_block s b n = .ok (s1, out)) :
    s1.buffer = s.buffer ∧ s1.buffer_size = s.buffer_size := by
  simp only [found_mismatch_block, Nat.sub_zero] at h
  cases h1 : found_mismatch_block_loop b n n 0 s with
  | error e => simp [h1] at h
  | ok r =>
    obtain ⟨sa, oa⟩ := r
    simp only [h1, Except.ok.injEq, Prod.mk.injEq] at h
    obtain ⟨rfl, -⟩ := h
    exact found_mismatch_block_loop_frame _ _ _ _ _ _ _ h1

/-- C10: `check_chunk()` is read-only on the buffer.  A `check_chunk()` call returns,
and unless it prints `Pass FAIL` it leaves the buffer as it was, whatever the buffer
holds; when it prints `Pass FAIL` the state it leaves is the one `fill()` gives, so the
writes are those of `fill()`.  `found_mismatch_block` and `found_mismatch` leave the
buffer as it was whenever they return, and they return for every block and byte inside
the buffer. -/
theorem check_chunk_read_only (s : RAMcheck) (hwf : s.wf) :
    (∃ s1 out, check_chunk s = .ok (s1, out) ∧
      (Event.pass true ∉ out → s1.buffer = s.buffer) ∧
      (Event.pass true ∈ out → fill s = .ok s1)) ∧
    (∀ b n s1 out, found_mismatch_block s b n = .ok (s1, out) → s1.buffer = s.buffer) ∧
    (∀ b i s1 out, found_mismatch s b i = .ok (s1, out) → s1.buffer = s.buffer) ∧
    (∀ b n, b + n ≤ s.buffer_size → n ≤ PATTERN_SIZE →
      ∃ s1 out, found_mismatch_block s b n = .ok (s1, out) ∧ s1.buffer = s.buffer) ∧
    (∀ b i, b < s.buffer_size → i < PATTERN_SIZE →
      ∃ s1 out, found_mismatch s b i = .ok (s1, out) ∧ s1.buffer = s.buffer) := by
  have hlen : s.buffer.length = s.buffer_size := hwf
  refine ⟨?_, ?_, ?_, ?_, ?_⟩
  · obtain ⟨out, hscan, hcall⟩ := check_chunk_with_spec CHUNK_SIZE s hwf
    by_cases hlt : s.chunk_start + CHUNK_SIZE < s.buffer_size
    · rw [if_pos hlt] at hcall
      refine ⟨_, _, hcall, fun _ => rfl, ?_⟩
      intro hmem
      have := mem_pass_summaries _ _ hmem
      rw [hscan.summaries_eq] at this
      simp at this
    · rw [if_neg hlt] at hcall
      refine ⟨_, _, hcall, ?_, ?_⟩
      · intro hnot
        cases hf : (s.pass_errors || !(reports out).isEmpty)
        · simp
        · exact absurd (by simp [hf]) hnot
      · intro hmem
        exact (check_chunk_with_fail CHUNK_SIZE s _ _ hwf hcall hmem) ▸ fill_eq s hwf
  · intro b n s1 out h
    exact (found_mismatch_block_frame s s1 b n out h).1
  · intro b i s1 out h
    exact (found_mismatch_frame s s1 b i out h).1
  · intro b n hb hn
    exact ⟨_, _, found_mismatch_block_spec s b n (by omega) hn, rfl⟩
  · intro b i hb hi
    refine ⟨{ s with pass_errors := true },
      [Event.mismatch b (pattern.getD i 0) (s.buffer.getD b 0)
        (s.buffer.getD b 0 ^^^ pattern.getD i 0)], ?_, rfl⟩
    simp only [found_mismatch, read_pattern i hi, read_buffer s.buffer b (by omega)]

/-- Witness of C10: a call on a buffer of three bytes with two flipped bits, whose
cursor is not at a chunk boundary. -/
theorem check_chunk_read_only_witness :
    (⟨3, [0x55, 0x54, 0xa8], 1, 0, false⟩ : RAMcheck).wf ∧
    ∃ s1 out, check_chunk ⟨3, [0x55, 0x54, 0xa8], 1, 0, false⟩ = .ok (s1, out) ∧
      (Event.pass true ∉ out → s1.buffer = [0x55, 0x54, 0xa8]) ∧
      (Event.pass true ∈ out →
        fill ⟨3, [0x55, 0x54, 0xa8], 1, 0, false⟩ = .ok s1) := by
  exact ⟨by decide, (check_chunk_read_only ⟨3, [0x55, 0x54, 0xa8], 1, 0, false⟩ (by decide)).1⟩

/-! ## The cursor in reachable states -/

theorem construct_cursor (avail : Nat) (mb : Int) (s0 : RAMcheck)
    (h : construct avail mb = .ok s0) : s0.chunk_start = 0 := by
  rw [construct_ok_eq avail mb s0 h]

theorem step_cursor (t t1 : Tracked) (a : Action)
    (hinv : t.s.wf ∧ t.s.chunk_start % CHUNK_SIZE = 0 ∧
      (t.s.chunk_start < t.s.buffer_size ∨ t.s.chunk_start = 0))
    (h : t.step a = .ok t1) :
    t1.s.wf ∧ t1.s.chunk_start % CHUNK_SIZE = 0 ∧
      (t1.s.chunk_start < t1.s.buffer_size ∨ t1.s.chunk_start = 0) := by
  obtain ⟨hwf, hmod, hle⟩ := hinv
  cases a with
  | fill =>
    simp only [Tracked.step, fill_eq t.s hwf] at h
    cases h
    exact ⟨healthy_length _, rfl, Or.inr rfl⟩
  | corrupt k v =>
    simp only [Tracked.step] at h
    cases h
    exact ⟨by simp only [wf, corrupt, List.length_set]; exact hwf, hmod, hle⟩
  | check_chunk =>
    obtain ⟨out, hscan, hcall⟩ := check_chunk_with_spec CHUNK_SIZE t.s hwf
    simp only [Tracked.step, check_chunk, hcall] at h
    by_cases hlt : t.s.chunk_start + CHUNK_SIZE < t.s.buffer_size
    · simp only [hlt, if_true] at h
      cases h
      refine ⟨hwf, ?_, Or.inl hlt⟩
      show (t.s.chunk_start + CHUNK_SIZE) % CHUNK_SIZE = 0
      rw [Nat.add_mod_right]
      exact hmod
    · simp only [hlt, if_false] at h
      cases h
      refine ⟨?_, rfl, Or.inr rfl⟩
      simp only [wf]
      split
      · exact healthy_length _
      · exact hwf

theorem steps_cursor : ∀ (acts : List Action) (t t1 : Tracked),
    (t.s.wf ∧ t.s.chunk_start % CHUNK_SIZE = 0 ∧
      (t.s.chunk_start < t.s.buffer_size ∨ t.s.chunk_start = 0)) →
    t.steps acts = .ok t1 →
    t1.s.wf ∧ t1.s.chunk_start % CHUNK_SIZE = 0 ∧
      (t1.s.chunk_start < t1.s.buffer_size ∨ t1.s.chunk_start = 0) := by
  intro acts
  induction acts with
  | nil =>
    intro t t1 hinv h
    simp only [Tracked.steps] at h
    cases h
    exact hinv
  | cons a acts ih =>
    intro t t1 hinv h
    simp only [Tracked.steps] at h
    cases hs : t.step a with
    | error e => simp [hs] at h
    | ok t2 =>
      simp only [hs] at h
      exact ih t2 t1 (step_cursor t t2 a hinv hs) h

/-- In a reachable state the cursor is a multiple of `CHUNK_SIZE`, and it is short of
the end of the buffer or at the start. -/
theorem reachable_cursor (t : Tracked) (h : Reachable t) :
    t.s.wf ∧ t.s.chunk_start % CHUNK_SIZE = 0 ∧
      (t.s.chunk_start < t.s.buffer_size ∨ t.s.chunk_start = 0) := by
  obtain ⟨avail, mb, s0, acts, hc, hs⟩ := h
  have hwf := (construct_inv avail mb s0 hc).1
  have h0 := construct_cursor avail mb s0 hc
  exact steps_cursor acts ⟨s0, []⟩ t ⟨hwf, by simp [h0], Or.inr h0⟩ hs

theorem mod_257_of_chunk (c : Nat) (h : c % CHUNK_SIZE = 0) : c % 257 = 0 := by
  rw [CHUNK_SIZE_eq] at h
  omega

theorem compared_concat_pass (out : List Event) (f : Bool) :
    compared (out ++ [Event.pass f]) = compared out := by
  simp [compared]

theorem pattern_getElem?_phase (b j : Nat) (hb : b % 257 = 0) (hj : j < 257) :
    pattern[j]? = pattern[(b + j) % PATTERN_SIZE]? := by
  have : (b + j) % PATTERN_SIZE = j := by simp only [PATTERN_SIZE]; omega
  rw [this]

/-- What a call prints: the output of its block loop, followed by the pass summary when
the call ends the pass. -/
theorem check_chunk_with_shape (cs : Nat) (s : RAMcheck) (hwf : s.wf) :
    ∃ s1 out0 tail, check_chunk_with cs s = .ok (s1, out0 ++ tail) ∧
      ScanOf s.buffer s.chunk_start s.chunk_start (min (s.chunk_start + cs) s.buffer_size) out0 ∧
      (tail = [] ∨ ∃ f, tail = [Event.pass f]) ∧ s1.wf ∧ s1.buffer_size = s.buffer_size := by
  obtain ⟨out, hscan, hcall⟩ := check_chunk_with_spec cs s hwf
  by_cases hlt : s.chunk_start + cs < s.buffer_size
  · rw [if_pos hlt] at hcall
    refine ⟨{ s with chunk_start := s.chunk_start + cs,
                     pass_errors := s.pass_errors || !(reports out).isEmpty }, out, [], ?_, hscan,
      Or.inl rfl, hwf, rfl⟩
    rw [List.append_nil]; exact hcall
  · rw [if_neg hlt] at hcall
    refine ⟨{ buffer_size := s.buffer_size,
              buffer := if (s.pass_errors || !(reports out).isEmpty) = true
                        then healthy s.buffer_size else s.buffer,
              chunk_start := 0, chunk_index := 0, pass_errors := false }, out,
      [Event.pass (s.pass_errors || !(reports out).isEmpty)], hcall, hscan,
      Or.inr ⟨_, rfl⟩, ?_, rfl⟩
    simp only [wf]
    split
    · exact healthy_length _
    · exact hwf

theorem compared_append_tail (out0 tail : List Event)
    (h : tail = [] ∨ ∃ f, tail = [Event.pass f]) : compared (out0 ++ tail) = compared out0 := by
  rcases h with rfl | ⟨f, rfl⟩
  · rw [List.append_nil]
  · exact compared_concat_pass out0 f

/-- C15: cursor invariant.  In every state reachable from construction by `fill()`
calls, `check_chunk()` calls and corruption of buffer bytes, `chunk_start ≤ N` and
`chunk_start` is a multiple of `CHUNK_SIZE`, hence of 257; so every block the next
`check_chunk()` call hands to `memcmp` starts at a multiple of 257, and byte `j` of
the pattern, which the block's byte `j` is compared with, is `pattern[(b + j) mod 257]`. -/
theorem cursor_invariant (t : Tracked) (hreach : Reachable t) :
    t.s.chunk_start ≤ t.s.buffer_size ∧
    t.s.chunk_start % CHUNK_SIZE = 0 ∧
    t.s.chunk_start % PATTERN_SIZE = 0 ∧
    ∃ s1 out, check_chunk t.s = .ok (s1, out) ∧
      ∀ p ∈ compared out, p.1 % PATTERN_SIZE = 0 ∧ p.2 ≤ PATTERN_SIZE ∧
        ∀ j, j < p.2 → pattern[j]? = pattern[(p.1 + j) % PATTERN_SIZE]? := by
  obtain ⟨hwf, hmod, hle⟩ := reachable_cursor t hreach
  have h257 := mod_257_of_chunk _ hmod
  obtain ⟨s1, out0, tail, hcall, hscan, htail, -, -⟩ := check_chunk_with_shape CHUNK_SIZE t.s hwf
  refine ⟨by omega, hmod, h257, s1, _, hcall, ?_⟩
  intro p hp
  rw [compared_append_tail out0 tail htail] at hp
  obtain ⟨h1, h2, h3, h4⟩ := hscan.compared_ok p hp
  have hp1 : p.1 % 257 = 0 := by omega
  refine ⟨hp1, by simp only [PATTERN_SIZE]; omega, ?_⟩
  intro j hj
  exact pattern_getElem?_phase p.1 j hp1 (by omega)

/-- Witness of C15: the checker for one megabyte after its first call. -/
theorem cursor_invariant_witness :
    Reachable ⟨⟨1048576, healthy 1048576, CHUNK_SIZE, 0, false⟩, []⟩ ∧
    CHUNK_SIZE ≤ 1048576 ∧ CHUNK_SIZE % CHUNK_SIZE = 0 ∧ CHUNK_SIZE % PATTERN_SIZE = 0 := by
  have hr := reachable_after_first_call (2 ^ 30) 1 1048576 construct_one_megabyte (by decide)
  obtain ⟨h1, h2, h3, _⟩ :=
    cursor_invariant ⟨⟨1048576, healthy 1048576, CHUNK_SIZE, 0, false⟩, []⟩ hr
  exact ⟨hr, h1, h2, h3⟩

/-! ## fill is idempotent -/

/-- C13: idempotence of `fill()`.  On every checker, `fill()` followed by `fill()`
gives the state that one `fill()` gives (buffer, cursor and flag), and that state is
the same for every checker with the same buffer length `N`, whatever its buffer
contents, cursor and flag were. -/
theorem fill_idempotent (s : RAMcheck) (hwf : s.wf) :
    ∃ s1, fill s = .ok s1 ∧ fill s1 = .ok s1 ∧
      ∀ s2 : RAMcheck, s2.wf → s2.buffer_size = s.buffer_size → fill s2 = .ok s1 := by
  refine ⟨_, fill_eq s hwf, ?_, ?_⟩
  · have hwf1 : (⟨s.buffer_size, healthy s.buffer_size, 0, 0, false⟩ : RAMcheck).wf :=
      healthy_length _
    exact fill_eq _ hwf1
  · intro s2 hwf2 hsize
    rw [fill_eq s2 hwf2, hsize]

/-- Witness of C13: a buffer of three bytes. -/
theorem fill_idempotent_witness :
    (⟨3, [9, 9, 9], 7, 1, true⟩ : RAMcheck).wf ∧
    ∃ s1, fill ⟨3, [9, 9, 9], 7, 1, true⟩ = .ok s1 ∧ fill s1 = .ok s1 ∧
      ∀ s2 : RAMcheck, s2.wf → s2.buffer_size = 3 → fill s2 = .ok s1 :=
  ⟨by decide, fill_idempotent ⟨3, [9, 9, 9], 7, 1, true⟩ (by decide)⟩

/-! ## The constants -/

/-- C17: `CHUNK_SIZE = (1048576 / 257) * 257 = 4080 * 257 = 1048560`, a positive
multiple of `PATTERN_SIZE = 257` and the largest one not above 1 MiB; the pattern table
has 257 entries, 8 fencepost bytes, 8 bytes of ones, 8 bytes of zeros and 233 further
bytes, each entry below 256. -/
theorem chunk_size_and_pattern_table :
    CHUNK_SIZE = (1048576 / 257) * 257 ∧ 1048576 / 257 = 4080 ∧ CHUNK_SIZE = 4080 * 257 ∧
    CHUNK_SIZE = 1048560 ∧ 0 < CHUNK_SIZE ∧ CHUNK_SIZE % PATTERN_SIZE = 0 ∧
    CHUNK_SIZE ≤ 1048576 ∧ 1048576 < CHUNK_SIZE + PATTERN_SIZE ∧
    PATTERN_SIZE = 257 ∧ pattern.length = PATTERN_SIZE ∧
    pattern.take 8 = [0x55, 0x55, 0xaa, 0xaa, 0x55, 0x55, 0xaa, 0xaa] ∧
    (pattern.drop 8).take 8 = List.replicate 8 0xff ∧
    (pattern.drop 16).take 8 = List.replicate 8 0x00 ∧
    (pattern.drop 24).length = 233 ∧
    (∀ x ∈ pattern, x < 256) := by
  refine ⟨by decide, by decide, by decide, by decide, by decide, by decide, by decide,
    by decide, rfl, by decide, by decide, by decide, by decide, by decide, by decide⟩

/-! ## What a mismatch line says -/

theorem pattern_bytes : ∀ x ∈ pattern, x < 256 := by decide

theorem pattern_getD_lt (i : Nat) : pattern.getD i 0 < 256 := by
  rw [List.getD_eq_getElem?_getD]
  by_cases h : i < pattern.length
  · rw [List.getElem?_eq_getElem h]
    exact pattern_bytes _ (List.getElem_mem h)
  · rw [List.getElem?_eq_none (by omega)]
    decide

theorem healthy_bytes (n : Nat) : ∀ x ∈ healthy n, x < 256 := by
  intro x hx
  simp only [healthy, List.mem_map] at hx
  obtain ⟨i, -, rfl⟩ := hx
  exact pattern_getD_lt _

theorem mem_reports_in (buf : List Nat) (c lo len : Nat) (e : Event)
    (h : e ∈ reports_in buf c lo len) :
    ∃ i, lo ≤ i ∧ i < lo + len ∧
      buf.getD i 0 ≠ pattern.getD ((i - c) % PATTERN_SIZE) 0 ∧
      e = Event.mismatch i (pattern.getD ((i - c) % PATTERN_SIZE) 0) (buf.getD i 0)
        (buf.getD i 0 ^^^ pattern.getD ((i - c) % PATTERN_SIZE) 0) := by
  simp only [reports_in, List.mem_flatMap, List.mem_range'_1] at h
  obtain ⟨i, ⟨h1, h2⟩, hi⟩ := h
  refine ⟨i, h1, h2, ?_⟩
  unfold report_at at hi
  by_cases hx : buf.getD i 0 = pattern.getD ((i - c) % PATTERN_SIZE) 0
  · rw [if_neg (by simpa using hx)] at hi
    cases hi
  · rw [if_pos hx] at hi
    exact ⟨hx, List.mem_singleton.mp hi⟩

theorem mem_reports_of_mem (out : List Event) (b should had flip : Nat)
    (h : Event.mismatch b should had flip ∈ out) :
    Event.mismatch b should had flip ∈ reports out := by
  simp only [reports, List.mem_filter]
  exact ⟨h, trivial⟩

theorem mismatch_mem_append_tail (out0 tail : List Event) (b should had flip : Nat)
    (htail : tail = [] ∨ ∃ f, tail = [Event.pass f])
    (h : Event.mismatch b should had flip ∈ out0 ++ tail) :
    Event.mismatch b should had flip ∈ out0 := by
  rcases List.mem_append.mp h with h | h
  · exact h
  · rcases htail with rfl | ⟨f, rfl⟩
    · simp at h
    · simp at h

theorem getD_lt_of_bytes (buf : List Nat) (hbytes : ∀ x ∈ buf, x < 256) (i : Nat) :
    buf.getD i 0 < 256 := by
  rw [List.getD_eq_getElem?_getD]
  by_cases h : i < buf.length
  · rw [List.getElem?_eq_getElem h]
    exact hbytes _ (List.getElem_mem h)
  · rw [List.getElem?_eq_none (by omega)]
    decide

/-- C11: mismatch report contents.  In a reachable state whose buffer holds bytes
(values below 256, as `unsigned char` does), every byte mismatch line that a
`check_chunk()` call prints has as index an offset `b` of the chunk scanned, as
expected value `pattern[b mod 257]`, as actual value `buffer[b]`, and as flip
`actual xor expected`, which lies in `1..255`; so `expected xor flip = actual`. -/
theorem mismatch_report_contents (t : Tracked) (hreach : Reachable t)
    (hbytes : ∀ x ∈ t.s.buffer, x < 256) :
    ∃ s1 out, check_chunk t.s = .ok (s1, out) ∧
      ∀ b should had flip, Event.mismatch b should had flip ∈ out →
        t.s.chunk_start ≤ b ∧ b < min (t.s.chunk_start + CHUNK_SIZE) t.s.buffer_size ∧
        pattern[b % PATTERN_SIZE]? = some should ∧ t.s.buffer[b]? = some had ∧
        flip = had ^^^ should ∧ 1 ≤ flip ∧ flip ≤ 255 ∧ should ^^^ flip = had := by
  obtain ⟨hwf, hmod, hle⟩ := reachable_cursor t hreach
  have h257 := mod_257_of_chunk _ hmod
  have hlen : t.s.buffer.length = t.s.buffer_size := hwf
  obtain ⟨s1, out0, tail, hcall, hscan, htail, -, -⟩ := check_chunk_with_shape CHUNK_SIZE t.s hwf
  refine ⟨s1, _, hcall, ?_⟩
  intro b should had flip hmem
  have hmem0 := mismatch_mem_append_tail out0 tail b should had flip htail hmem
  have hrep := mem_reports_of_mem out0 b should had flip hmem0
  rw [hscan.reports_eq] at hrep
  obtain ⟨i, h1, h2, hne, he⟩ := mem_reports_in _ _ _ _ _ hrep
  simp only [Event.mismatch.injEq] at he
  obtain ⟨rfl, rfl, rfl, rfl⟩ := he
  have hph : (b - t.s.chunk_start) % PATTERN_SIZE = b % PATTERN_SIZE := by
    simp only [PATTERN_SIZE]; omega
  rw [hph] at hne ⊢
  have hb : b < t.s.buffer.length := by omega
  have hp : b % PATTERN_SIZE < pattern.length := by
    rw [pattern_length]; simp only [PATTERN_SIZE]; omega
  have hx1 := getD_lt_of_bytes t.s.buffer hbytes b
  have hx2 := pattern_getD_lt (b % PATTERN_SIZE)
  have hxor : t.s.buffer.getD b 0 ^^^ pattern.getD (b % PATTERN_SIZE) 0 < 2 ^ 8 :=
    Nat.xor_lt_two_pow (by omega) (by omega)
  have hnz : t.s.buffer.getD b 0 ^^^ pattern.getD (b % PATTERN_SIZE) 0 ≠ 0 := by
    intro h0
    exact hne (Nat.xor_eq_zero.mp h0)
  refine ⟨h1, by omega, ?_, ?_, rfl, by omega, by omega, ?_⟩
  · simp [List.getD_eq_getElem?_getD, List.getElem?_eq_getElem hp]
  · simp [List.getD_eq_getElem?_getD, List.getElem?_eq_getElem hb]
  · rw [Nat.xor_comm (t.s.buffer.getD b 0), Nat.xor_cancel_left]


/-! ## Every mismatching byte is reported -/

theorem check_chunk_loop_gate (e : Nat) : ∀ (fuel b : Nat) (s : RAMcheck),
    e ≤ s.buffer.length → e - b ≤ fuel →
    ∃ s2 out, check_chunk_loop e fuel b s = .ok (s2, out) ∧
      (∀ p ∈ compared out, Event.block p.1 p.2 ∉ out →
        reports_in s.buffer p.1 p.1 p.2 = []) ∧
      (∀ b1 n1, Event.block b1 n1 ∈ out → (b1, n1) ∈ compared out) := by
  intro fuel
  induction fuel with
  | zero =>
    intro b s _ hfuel
    have hlt : ¬ b < e := by omega
    refine ⟨s, [], by simp [check_chunk_loop, hlt], ?_, ?_⟩
    · intro p hp; simp [compared] at hp
    · intro b1 n1 h; simp at h
  | succ fuel ih =>
    intro b s he hfuel
    by_cases hlt : b < e
    · obtain ⟨n, hn⟩ : ∃ n, n = (if b + 257 > e then e - b else 257) := ⟨_, rfl⟩
      have hn257 : n ≤ 257 := by rw [hn]; split <;> omega
      have hbn : b + n ≤ s.buffer.length := by rw [hn]; split <;> omega
      obtain ⟨cmp, hcmp, hzero⟩ := memcmp_spec s.buffer b n hbn hn257
      by_cases hz : cmp = 0
      · obtain ⟨s2, out2, hout2, hgate, hblocks⟩ := ih (b + 257) s he (by omega)
        refine ⟨s2, Event.compare b n :: out2, ?_, ?_, ?_⟩
        · simp only [check_chunk_loop, hlt, if_true, PATTERN_SIZE]
          rw [← hn]
          simp only [hcmp, hz, ne_eq, not_true_eq_false, if_false, hout2]
          rfl
        · intro p hp hnot
          simp only [compared, List.filterMap_cons, List.mem_cons] at hp
          rcases hp with hp | hp
          · subst hp; exact hzero.mp hz
          · exact hgate p hp (fun hm => hnot (List.mem_cons_of_mem _ hm))
        · intro b1 n1 hm
          simp only [List.mem_cons, reduceCtorEq, false_or] at hm
          have := hblocks b1 n1 hm
          simp only [compared, List.filterMap_cons, List.mem_cons]
          exact Or.inr this
      · have hblk := found_mismatch_block_spec s b n hbn hn257
        obtain ⟨s2, out2, hout2, hgate, hblocks⟩ := ih (b + 257)
          { s with pass_errors := s.pass_errors || !(reports_in s.buffer b b n).isEmpty }
          he (by omega)
        have hz2 : ¬ (0 = cmp) := fun h => hz h.symm
        refine ⟨s2, Event.compare b n :: (Event.block b n :: reports_in s.buffer b b n) ++ out2,
          ?_, ?_, ?_⟩
        · simp only [check_chunk_loop, hlt, if_true, PATTERN_SIZE]
          rw [← hn]
          simp only [hcmp, ne_eq, hz2, not_false_eq_true, if_true, hblk, hout2]
        · intro p hp hnot
          simp only [compared, List.cons_append, List.filterMap_cons, List.mem_cons,
            List.filterMap_append, List.mem_append] at hp
          have hc0 := compared_reports_in s.buffer b b n
          simp only [compared] at hc0
          rw [hc0] at hp
          rcases hp with hp | hp | hp
          · subst hp
            exact absurd (by simp) hnot
          · simp at hp
          · exact hgate p hp (fun hm => hnot (by
              simp only [List.cons_append, List.mem_cons, List.mem_append]
              exact Or.inr (Or.inr (Or.inr hm))))
        · intro b1 n1 hm
          simp only [List.cons_append, List.mem_cons, reduceCtorEq, false_or,
            Event.block.injEq, List.mem_append] at hm
          simp only [compared, List.cons_append, List.filterMap_cons, List.mem_cons,
            Prod.mk.injEq, List.filterMap_append, List.mem_append]
          rcases hm with ⟨h1, h2⟩ | hm | hm
          · exact Or.inl ⟨h1, h2⟩
          · obtain ⟨i, -, -, -, he⟩ := mem_reports_in _ _ _ _ _ hm
            cases he
          · exact Or.inr (Or.inr (hblocks b1 n1 hm))
    · refine ⟨s, [], by simp [check_chunk_loop, hlt], ?_, ?_⟩
      · intro p hp; simp [compared] at hp
      · intro b1 n1 h; simp at h

/-- One call, with the result of its block loop. -/
theorem check_chunk_with_loop (cs : Nat) (s : RAMcheck) (hwf : s.wf) :
    ∃ out tail s1,
      check_chunk_loop (min (s.chunk_start + cs) s.buffer_size)
          (min (s.chunk_start + cs) s.buffer_size - s.chunk_start) s.chunk_start s =
        .ok ({ s with pass_errors := s.pass_errors || !(reports out).isEmpty }, out) ∧
      ScanOf s.buffer s.chunk_start s.chunk_start (min (s.chunk_start + cs) s.buffer_size) out ∧
      check_chunk_with cs s = .ok (s1, out ++ tail) ∧
      ((tail = [] ∧ s1.pass_errors = (s.pass_errors || !(reports out).isEmpty)) ∨
        tail = [Event.pass (s.pass_errors || !(reports out).isEmpty)]) ∧
      (∀ p ∈ compared out, Event.block p.1 p.2 ∉ out →
        reports_in s.buffer p.1 p.1 p.2 = []) ∧
      (∀ b1 n1, Event.block b1 n1 ∈ out → (b1, n1) ∈ compared out) := by
  obtain ⟨e, he⟩ : ∃ e, e = (if s.chunk_start + cs > s.buffer_size then s.buffer_size
      else s.chunk_start + cs) := ⟨_, rfl⟩
  have hmin : min (s.chunk_start + cs) s.buffer_size = e := by rw [he]; split <;> omega
  have hlen : s.buffer.length = s.buffer_size := hwf
  obtain ⟨out, hout, hscan⟩ := check_chunk_loop_spec e s.chunk_start (e - s.chunk_start)
    s.chunk_start s (by omega) (Nat.le_refl _) (by simp) (Nat.le_refl _)
  obtain ⟨s2, out2, hout2, hgate⟩ := check_chunk_loop_gate e (e - s.chunk_start)
    s.chunk_start s (by omega) (Nat.le_refl _)
  rw [hout] at hout2
  simp only [Except.ok.injEq, Prod.mk.injEq] at hout2
  obtain ⟨-, rfl⟩ := hout2
  rw [hmin]
  by_cases hlt : s.chunk_start + cs < s.buffer_size
  · refine ⟨out, [], ⟨s.buffer_size, s.buffer, s.chunk_start + cs, s.chunk_index,
        s.pass_errors || !(reports out).isEmpty⟩, hout, hscan, ?_, Or.inl ⟨rfl, rfl⟩, hgate⟩
    have e1 : e = s.chunk_start + cs := by omega
    have e2 : ¬ (s.chunk_start + cs ≥ s.buffer_size) := by omega
    simp only [check_chunk_with]
    rw [← he]
    simp only [hout]
    simp only [e1, e2, if_false, List.append_nil]
  · refine ⟨out, [Event.pass (s.pass_errors || !(reports out).isEmpty)],
      ⟨s.buffer_size, if (s.pass_errors || !(reports out).isEmpty) = true
        then healthy s.buffer_size else s.buffer, 0, 0, false⟩, hout, hscan, ?_,
      Or.inr rfl, hgate⟩
    have e1 : e = s.buffer_size := by omega
    simp only [check_chunk_with]
    rw [← he]
    simp only [hout]
    simp only [e1, ge_iff_le, Nat.le_refl, if_true]
    cases hf : (s.pass_errors || !(reports out).isEmpty)
    · simp
    · have hw2 : ({ s with pass_errors := true, chunk_start := s.buffer_size } : RAMcheck).wf :=
        hlen
      simp [fill_eq _ hw2]

theorem reports_append_tail (out0 tail : List Event)
    (h : tail = [] ∨ ∃ f, tail = [Event.pass f]) : reports (out0 ++ tail) = reports out0 := by
  rcases h with rfl | ⟨f, rfl⟩
  · rw [List.append_nil]
  · rw [reports_append]; simp [reports]

theorem isEmpty_eq_false_iff (l : List Event) : (!l.isEmpty) = true ↔ l ≠ [] := by
  cases l <;> simp

/-- C14: every mismatching byte of a scanned chunk is reported, once, without stopping.
In every reachable state, whatever the buffer holds, the byte mismatch lines of one
`check_chunk()` call are those of the offsets `i` with `chunk_start ≤ i < end` and
`buffer[i] ≠ pattern[i mod 257]`, one line for each, in ascending order; after the
block loop of the call the flag is set exactly when there is such an offset or the
flag was set before (that value is kept by a call that does not end the pass and
printed as the summary by one that does); and a block that `memcmp` lets pass without
a block mismatch line holds no such offset. -/
theorem every_mismatch_reported (t : Tracked) (hreach : Reachable t) :
    ∃ s2 out s1 tail,
      check_chunk_loop (min (t.s.chunk_start + CHUNK_SIZE) t.s.buffer_size)
          (min (t.s.chunk_start + CHUNK_SIZE) t.s.buffer_size - t.s.chunk_start)
          t.s.chunk_start t.s = .ok (s2, out) ∧
      check_chunk t.s = .ok (s1, out ++ tail) ∧
      ((tail = [] ∧ s1.pass_errors = s2.pass_errors) ∨ tail = [Event.pass s2.pass_errors]) ∧
      reports (out ++ tail) =
        (List.range' t.s.chunk_start
          (min (t.s.chunk_start + CHUNK_SIZE) t.s.buffer_size - t.s.chunk_start)).flatMap
          (fun i =>
            if t.s.buffer.getD i 0 ≠ pattern.getD (i % PATTERN_SIZE) 0 then
              [Event.mismatch i (pattern.getD (i % PATTERN_SIZE) 0) (t.s.buffer.getD i 0)
                (t.s.buffer.getD i 0 ^^^ pattern.getD (i % PATTERN_SIZE) 0)]
            else []) ∧
      (s2.pass_errors = true ↔
        ((∃ i, t.s.chunk_start ≤ i ∧
            i < min (t.s.chunk_start + CHUNK_SIZE) t.s.buffer_size ∧
            t.s.buffer.getD i 0 ≠ pattern.getD (i % PATTERN_SIZE) 0) ∨
          t.s.pass_errors = true)) ∧
      (∀ p ∈ compared out, Event.block p.1 p.2 ∉ out →
        ∀ i, p.1 ≤ i → i < p.1 + p.2 →
          t.s.buffer.getD i 0 = pattern.getD (i % PATTERN_SIZE) 0) := by
  obtain ⟨hwf, hmod, hle⟩ := reachable_cursor t hreach
  have h257 := mod_257_of_chunk _ hmod
  obtain ⟨out, tail, s1, hloop, hscan, hcall, htail, hgate, -⟩ :=
    check_chunk_with_loop CHUNK_SIZE t.s hwf
  have hrep0 : reports out = reports_in t.s.buffer 0 t.s.chunk_start
      (min (t.s.chunk_start + CHUNK_SIZE) t.s.buffer_size - t.s.chunk_start) := by
    rw [hscan.reports_eq]
    exact reports_in_phase t.s.buffer 0 t.s.chunk_start (Nat.zero_le _) (by simpa using h257)
      _ _ (Nat.le_refl _)
  have htail2 : tail = [] ∨ ∃ f, tail = [Event.pass f] := by
    rcases htail with ⟨h, -⟩ | h
    · exact Or.inl h
    · exact Or.inr ⟨_, h⟩
  refine ⟨_, out, s1, tail, hloop, hcall, htail, ?_, ?_, ?_⟩
  · rw [reports_append_tail out tail htail2, hrep0]
    rfl
  · show (t.s.pass_errors || !(reports out).isEmpty) = true ↔ _
    rw [Bool.or_eq_true, isEmpty_eq_false_iff, hrep0, ne_eq, reports_in_eq_nil]
    constructor
    · rintro (h | h)
      · exact Or.inr h
      · left
        by_contra hno
        apply h
        intro i h1 h2
        by_contra hne
        exact hno ⟨i, h1, by omega, hne⟩
    · rintro (⟨i, h1, h2, hne⟩ | h)
      · right
        intro hall
        exact hne (hall i h1 (by omega))
      · exact Or.inl h
  · intro p hp hnot i h1 h2
    have hnil := hgate p hp hnot
    rw [reports_in_eq_nil] at hnil
    have := hnil i h1 h2
    obtain ⟨q1, q2, -, -⟩ := hscan.compared_ok p hp
    have hph : (i - p.1) % PATTERN_SIZE = i % PATTERN_SIZE := by
      simp only [PATTERN_SIZE]; omega
    rw [hph] at this
    exact this


/-! ## The last block of a pass -/

theorem last_block (L : List (Nat × Nat)) (hpos : ∀ p ∈ L, 0 < p.2) (hne : L ≠ []) :
    ∃ p, L.getLast? = some p ∧
      (L.flatMap fun p => List.range' p.1 p.2).getLast? = some (p.1 + p.2 - 1) := by
  rcases List.eq_nil_or_concat L with h | ⟨ys, p, h⟩
  · exact absurd h hne
  · rw [List.concat_eq_append] at h
    subst h
    refine ⟨p, by simp, ?_⟩
    have hp : 0 < p.2 := hpos p (by simp)
    rw [List.flatMap_append, List.getLast?_append]
    simp only [List.flatMap_cons, List.flatMap_nil, List.append_nil, List.getLast?_range']
    have : p.2 ≠ 0 := by omega
    simp [this]

theorem mem_reports_in_of (buf : List Nat) (c lo len i : Nat) (h1 : lo ≤ i) (h2 : i < lo + len)
    (hne : buf.getD i 0 ≠ pattern.getD ((i - c) % PATTERN_SIZE) 0) :
    Event.mismatch i (pattern.getD ((i - c) % PATTERN_SIZE) 0) (buf.getD i 0)
      (buf.getD i 0 ^^^ pattern.getD ((i - c) % PATTERN_SIZE) 0) ∈ reports_in buf c lo len := by
  simp only [reports_in, List.mem_flatMap, List.mem_range'_1]
  refine ⟨i, ⟨h1, h2⟩, ?_⟩
  unfold report_at
  rw [if_pos hne]
  exact List.mem_singleton.mpr rfl

theorem mem_of_mem_reports (out : List Event) (e : Event) (h : e ∈ reports out) : e ∈ out := by
  simp only [reports, List.mem_filter] at h
  exact h.1

/-- C12: boundary block.  Take a checker with `N ≥ 1` bytes whose cursor is at a
multiple of 257, short of `N` and within one chunk of it, so that the next
`check_chunk()` call is the last of the pass.  The last block that call hands to `memcmp`
starts at a multiple of 257, ends at `N`, and has length `N mod 257`, or 257 when 257
divides `N`; byte `j` of it is compared with `pattern[j] = pattern[(start+j) mod 257]`,
and a byte mismatch line for offset `start + j` is printed exactly when
`buffer[start+j] ≠ pattern[j]`. -/
theorem boundary_block (s : RAMcheck) (hwf : s.wf) (halign : s.chunk_start % PATTERN_SIZE = 0)
    (hstart : s.chunk_start < s.buffer_size)
    (hlast : s.buffer_size ≤ s.chunk_start + CHUNK_SIZE) :
    ∃ s1 out start len,
      check_chunk s = .ok (s1, out) ∧ pass_done out = true ∧
      (compared out).getLast? = some (start, len) ∧
      start % PATTERN_SIZE = 0 ∧ start + len = s.buffer_size ∧
      len = (if s.buffer_size % PATTERN_SIZE = 0 then PATTERN_SIZE
             else s.buffer_size % PATTERN_SIZE) ∧
      ∀ j, j < len →
        pattern[j]? = pattern[(start + j) % PATTERN_SIZE]? ∧
        ((∃ should had flip, Event.mismatch (start + j) should had flip ∈ out) ↔
          s.buffer[start + j]? ≠ pattern[j]?) := by
  have hlen : s.buffer.length = s.buffer_size := hwf
  simp only [PATTERN_SIZE] at halign
  obtain ⟨out, hscan, hcall⟩ := check_chunk_with_spec CHUNK_SIZE s hwf
  have hnlt : ¬ (s.chunk_start + CHUNK_SIZE < s.buffer_size) := by omega
  have hmin : min (s.chunk_start + CHUNK_SIZE) s.buffer_size = s.buffer_size := by omega
  rw [if_neg hnlt] at hcall
  rw [hmin] at hscan
  have hne : compared out ≠ [] := by
    intro h0
    have := hscan.scanned_eq
    simp only [scanned, h0, List.flatMap_nil] at this
    have hl := congrArg List.length this
    simp at hl
    omega
  obtain ⟨p, hp1, hp2⟩ := last_block (compared out)
    (fun q hq => (hscan.compared_ok q hq).2.2.1) hne
  have hsc := hscan.scanned_eq
  simp only [scanned] at hsc
  rw [hsc, List.getLast?_range'] at hp2
  have hpm : p ∈ compared out := by
    obtain ⟨ys, hys⟩ := List.getLast?_eq_some_iff.mp hp1
    rw [hys]; simp
  obtain ⟨q1, q2, q3, q4⟩ := hscan.compared_ok p hpm
  have hnz : ¬ (s.buffer_size - s.chunk_start = 0) := by omega
  simp only [hnz, if_false, Option.some.injEq] at hp2
  have hend : p.1 + p.2 = s.buffer_size := by omega
  have hst : p.1 % 257 = 0 := by omega
  refine ⟨_, _, p.1, p.2, hcall, pass_done_concat_pass _ _, ?_, hst, hend, ?_, ?_⟩
  · rw [compared_concat_pass]; exact hp1
  · simp only [PATTERN_SIZE]
    split <;> omega
  · intro j hj
    have hj257 : j < 257 := by omega
    refine ⟨pattern_getElem?_phase p.1 j hst hj257, ?_⟩
    have hb : p.1 + j < s.buffer.length := by omega
    have hpl : j < pattern.length := by rw [pattern_length]; exact hj257
    have hph : (p.1 + j - s.chunk_start) % PATTERN_SIZE = j := by
      simp only [PATTERN_SIZE]; omega
    have hiff : s.buffer[p.1 + j]? ≠ pattern[j]? ↔
        s.buffer.getD (p.1 + j) 0 ≠ pattern.getD j 0 := by
      simp [List.getD_eq_getElem?_getD, List.getElem?_eq_getElem hb,
        List.getElem?_eq_getElem hpl]
    rw [hiff]
    constructor
    · rintro ⟨should, had, flip, hm⟩
      have hm0 := mismatch_mem_append_tail out _ _ _ _ _ (Or.inr ⟨_, rfl⟩) hm
      have hr := mem_reports_of_mem out _ _ _ _ hm0
      rw [hscan.reports_eq] at hr
      obtain ⟨i, -, -, hne2, he⟩ := mem_reports_in _ _ _ _ _ hr
      simp only [Event.mismatch.injEq] at he
      obtain ⟨hi, -, -, -⟩ := he
      rw [← hi, hph] at hne2
      exact hne2
    · intro hne2
      have hm := mem_reports_in_of s.buffer s.chunk_start s.chunk_start
        (s.buffer_size - s.chunk_start) (p.1 + j) (by omega) (by omega)
        (by rw [hph]; exact hne2)
      rw [← hscan.reports_eq] at hm
      exact ⟨_, _, _, List.mem_append_left _ (mem_of_mem_reports out _ hm)⟩

/-- Witness of C12: a buffer of three bytes, whose one block has length `3 mod 257`. -/
theorem boundary_block_witness :
    (⟨3, [0x55, 0x54, 0xaa], 0, 0, false⟩ : RAMcheck).wf ∧
    ∃ s1 out start len,
      check_chunk ⟨3, [0x55, 0x54, 0xaa], 0, 0, false⟩ = .ok (s1, out) ∧
      (compared out).getLast? = some (start, len) ∧ start + len = 3 ∧ len = 3 := by
  obtain ⟨s1, out, start, len, h1, _, h3, _, h5, h6, _⟩ :=
    boundary_block ⟨3, [0x55, 0x54, 0xaa], 0, 0, false⟩ (by decide) (by decide) (by decide)
      (by decide)
  exact ⟨by decide, s1, out, start, len, h1, h3, h5, h6⟩

/-! ## No abort, no access out of bounds -/

theorem read_ok_lt (a : List Nat) (i v : Nat) (h : read a i = .ok v) : i < a.length := by
  unfold read at h
  by_contra hge
  rw [List.getElem?_eq_none (by omega)] at h
  cases h

theorem write_ok_lt (a a1 : List Nat) (i v : Nat) (h : write a i v = .ok a1) :
    i < a.length := by
  unfold write at h
  by_contra hge
  rw [if_neg hge] at h
  cases h

theorem memcmp_ok_le (s1 s2 : List Nat) (o1 n : Nat) (c : Int)
    (h : memcmp s1 o1 s2 n = .ok c) : o1 + n ≤ s1.length ∧ n ≤ s2.length := by
  unfold memcmp at h
  by_contra hno
  rw [if_neg hno] at h
  cases h

/-- C16: a detected mismatch never aborts and no access is out of bounds.  In every
reachable state, whatever the buffer holds, `fill()` and `check_chunk()` return
(an access outside `buffer` or `pattern` would make them fail, as the last three lines
say of `read`, `write` and `memcmp`); every block `check_chunk()` hands to `memcmp` lies
inside the buffer and is at most 257 bytes; every block it hands to
`found_mismatch_block` and every byte it hands to `found_mismatch` lies inside the
buffer; and the two reporting methods return for every such block and byte. -/
theorem no_abort_in_bounds (t : Tracked) (hreach : Reachable t) :
    (∃ s1, fill t.s = .ok s1) ∧
    (∃ s1 out, check_chunk t.s = .ok (s1, out) ∧
      (∀ p ∈ compared out, p.1 + p.2 ≤ t.s.buffer_size ∧ p.2 ≤ PATTERN_SIZE) ∧
      (∀ b n, Event.block b n ∈ out → b + n ≤ t.s.buffer_size ∧ n ≤ PATTERN_SIZE) ∧
      (∀ b should had flip, Event.mismatch b should had flip ∈ out →
        b < t.s.buffer_size)) ∧
    (∀ b n, b + n ≤ t.s.buffer_size → n ≤ PATTERN_SIZE →
      ∃ s2 out2, found_mismatch_block t.s b n = .ok (s2, out2)) ∧
    (∀ b i, b < t.s.buffer_size → i < PATTERN_SIZE →
      ∃ s2 out2, found_mismatch t.s b i = .ok (s2, out2)) ∧
    (∀ a i v, read a i = .ok v → i < a.length) ∧
    (∀ a i v a1, write a i v = .ok a1 → i < a.length) ∧
    (∀ s1 o1 s2 n c, memcmp s1 o1 s2 n = .ok c → o1 + n ≤ s1.length ∧ n ≤ s2.length) := by
  obtain ⟨hwf, -, -⟩ := reachable_cursor t hreach
  have hlen : t.s.buffer.length = t.s.buffer_size := hwf
  obtain ⟨out, tail, s1, -, hscan, hcall, htail, -, hblocks⟩ :=
    check_chunk_with_loop CHUNK_SIZE t.s hwf
  have htail2 : tail = [] ∨ ∃ f, tail = [Event.pass f] := by
    rcases htail with ⟨h, -⟩ | h
    · exact Or.inl h
    · exact Or.inr ⟨_, h⟩
  have hcmp : ∀ p ∈ compared out, p.1 + p.2 ≤ t.s.buffer_size ∧ p.2 ≤ PATTERN_SIZE := by
    intro p hp
    obtain ⟨q1, q2, q3, q4⟩ := hscan.compared_ok p hp
    simp only [PATTERN_SIZE]
    omega
  refine ⟨⟨_, fill_eq t.s hwf⟩, ⟨s1, _, hcall, ?_, ?_, ?_⟩, ?_, ?_, ?_, ?_, ?_⟩
  · intro p hp
    rw [compared_append_tail out tail htail2] at hp
    exact hcmp p hp
  · intro b n hm
    have hm0 : Event.block b n ∈ out := by
      rcases List.mem_append.mp hm with h | h
      · exact h
      · rcases htail2 with rfl | ⟨f, rfl⟩
        · simp at h
        · simp at h
    exact hcmp (b, n) (hblocks b n hm0)
  · intro b should had flip hm
    have hm0 := mismatch_mem_append_tail out tail b should had flip htail2 hm
    have hr := mem_reports_of_mem out b should had flip hm0
    rw [hscan.reports_eq] at hr
    obtain ⟨i, h1, h2, -, he⟩ := mem_reports_in _ _ _ _ _ hr
    simp only [Event.mismatch.injEq] at he
    obtain ⟨rfl, -, -, -⟩ := he
    omega
  · intro b n hb hn
    exact ⟨_, _, found_mismatch_block_spec t.s b n (by omega) hn⟩
  · intro b i hb hi
    refine ⟨⟨t.s.buffer_size, t.s.buffer, t.s.chunk_start, t.s.chunk_index, true⟩,
      [Event.mismatch b (pattern.getD i 0) (t.s.buffer.getD b 0)
        (t.s.buffer.getD b 0 ^^^ pattern.getD i 0)], ?_⟩
    simp only [found_mismatch, read_pattern i hi, read_buffer t.s.buffer b (by omega)]
  · exact read_ok_lt
  · intro a i v a1 h
    exact write_ok_lt a a1 i v h
  · intro s1 o1 s2 n c h
    exact memcmp_ok_le s1 s2 o1 n c h


/-! ## Calls per pass -/

theorem run_pass_none (cs : Nat) : ∀ (j : Nat) (s sj : RAMcheck) (outs : List (List Event)),
    check_chunks cs j s = .ok (sj, outs) → (∀ o ∈ outs, pass_done o = false) →
    run_pass cs j s = .ok none := by
  intro j
  induction j with
  | zero => intro s sj outs _ _; rfl
  | succ j ih =>
    intro s sj outs hrun hnone
    rw [check_chunks] at hrun
    cases h1 : check_chunk_with cs s with
    | error e => simp [h1] at hrun
    | ok r =>
      obtain ⟨sa, oa⟩ := r
      simp only [h1] at hrun
      cases h2 : check_chunks cs j sa with
      | error e => simp [h2] at hrun
      | ok r2 =>
        obtain ⟨sb, ob⟩ := r2
        simp only [h2, Except.ok.injEq, Prod.mk.injEq] at hrun
        obtain ⟨rfl, rfl⟩ := hrun
        have hoa : pass_done oa = false := hnone oa (List.mem_cons_self _ _)
        have := ih sa sb ob h2 (fun o ho => hnone o (List.mem_cons_of_mem _ ho))
        simp [run_pass, h1, hoa, this]

/-- The pass of a freshly filled checker with `n ≥ 1` bytes, call by call. -/
theorem fresh_pass_calls (n : Nat) (hn : 1 ≤ n) :
    ∃ sf outs last,
      (∀ fuel, (n - 1) / CHUNK_SIZE + 1 ≤ fuel →
        run_pass CHUNK_SIZE fuel ⟨n, healthy n, 0, 0, false⟩ = .ok (some (sf, outs))) ∧
      (∀ fuel, fuel < (n - 1) / CHUNK_SIZE + 1 →
        run_pass CHUNK_SIZE fuel ⟨n, healthy n, 0, 0, false⟩ = .ok none) ∧
      outs.length = (n - 1) / CHUNK_SIZE + 1 ∧
      outs.getLast? = some last ∧
      scanned last = List.range' ((n - 1) / CHUNK_SIZE * CHUNK_SIZE)
        (n - (n - 1) / CHUNK_SIZE * CHUNK_SIZE) := by
  have hwf0 : (⟨n, healthy n, 0, 0, false⟩ : RAMcheck).wf := healthy_length _
  obtain ⟨hb1, hb2⟩ := calls_bounds n
  obtain ⟨outs, hrun, -, hlen, -, -, -, -, out, hlast, hscan⟩ :=
    run_pass_spec CHUNK_SIZE CHUNK_SIZE_mod _ hwf0 ((n - 1) / CHUNK_SIZE) hb1 hb2
  have hl : ∃ last, outs.getLast? = some last ∧
      scanned last = List.range' ((n - 1) / CHUNK_SIZE * CHUNK_SIZE)
        (n - (n - 1) / CHUNK_SIZE * CHUNK_SIZE) := by
    refine ⟨_, by rw [List.getLast?_eq_getElem?, hlen]; exact hlast, ?_⟩
    rw [scanned_concat_pass, hscan.scanned_eq]
    simp
  obtain ⟨last, hl1, hl2⟩ := hl
  refine ⟨_, outs, last, hrun, ?_, hlen, hl1, hl2⟩
  · intro fuel hfuel
    have hle : fuel ≤ (n - 1) / CHUNK_SIZE := by omega
    obtain ⟨outs_j, hj1, hjlen, -, -, hper⟩ :=
      check_chunks_before_end CHUNK_SIZE CHUNK_SIZE_mod _ hwf0 fuel (by
        intro _
        have := hb1
        simp only [CHUNK_SIZE_eq] at this hle ⊢
        omega)
    refine run_pass_none CHUNK_SIZE fuel _ _ outs_j hj1 ?_
    intro o ho
    obtain ⟨i, hi⟩ := List.mem_iff_getElem?.mp ho
    have hik : i < fuel := by
      by_contra hge
      rw [List.getElem?_eq_none (by omega)] at hi
      exact absurd hi (by simp)
    obtain ⟨o2, ho2, hs2⟩ := hper i hik
    rw [hi] at ho2
    cases ho2
    exact pass_done_false _ hs2.summaries_eq

/-- C18: calls per pass.  From a freshly filled checker with `N ≥ 1` bytes a pass
completes after exactly `ceil (N / 1048560)` calls of `check_chunk()`.  A checker
constructed for `mb` megabytes has `N = mb*1048560 + 16*mb`; for `1 ≤ mb ≤ 65535` its
pass takes exactly `mb + 1` calls, the last of which scans the `16*mb` bytes from
offset `mb*1048560`, and for `mb = 65536` it takes `mb + 2` calls, more than `mb + 1`. -/
theorem calls_per_pass (s s0 : RAMcheck) (hwf : s.wf) (hN : 1 ≤ s.buffer_size)
    (hfill : fill s = .ok s0) :
    (∃ sf outs,
      (∀ fuel, (s.buffer_size + 1048559) / 1048560 ≤ fuel →
        run_pass CHUNK_SIZE fuel s0 = .ok (some (sf, outs))) ∧
      (∀ fuel, fuel < (s.buffer_size + 1048559) / 1048560 →
        run_pass CHUNK_SIZE fuel s0 = .ok none) ∧
      outs.length = (s.buffer_size + 1048559) / 1048560) ∧
    (∀ (avail : Nat) (mb : Int) (sc : RAMcheck), 1 ≤ mb → mb ≤ 65535 →
      construct avail mb = .ok sc →
      sc.buffer_size = mb.toNat * 1048560 + 16 * mb.toNat ∧
      ∃ sf outs last,
        (∀ fuel, mb.toNat + 1 ≤ fuel →
          run_pass CHUNK_SIZE fuel sc = .ok (some (sf, outs))) ∧
        (∀ fuel, fuel < mb.toNat + 1 → run_pass CHUNK_SIZE fuel sc = .ok none) ∧
        outs.length = mb.toNat + 1 ∧
        outs.getLast? = some last ∧
        scanned last = List.range' (mb.toNat * 1048560) (16 * mb.toNat)) ∧
    (∀ (avail : Nat) (sc : RAMcheck), construct avail 65536 = .ok sc →
      ∃ sf outs,
        (∀ fuel, 65536 + 2 ≤ fuel → run_pass CHUNK_SIZE fuel sc = .ok (some (sf, outs))) ∧
        run_pass CHUNK_SIZE (65536 + 1) sc = .ok none ∧
        outs.length = 65536 + 2 ∧ 65536 + 1 < outs.length) := by
  refine ⟨?_, ?_, ?_⟩
  · have hs0 := fill_inv s s0 hwf hfill
    subst hs0
    obtain ⟨sf, outs, last, h1, h2, h3, -, -⟩ := fresh_pass_calls s.buffer_size hN
    have hK : (s.buffer_size - 1) / CHUNK_SIZE + 1 = (s.buffer_size + 1048559) / 1048560 := by
      rw [CHUNK_SIZE_eq]; omega
    rw [hK] at h1 h2 h3
    exact ⟨sf, outs, h1, h2, h3⟩
  · intro avail mb sc hlo hhi hcon
    have hsc := construct_ok_eq avail mb sc hcon
    have hsize := size_of_positive mb (by omega) (by omega)
    rw [hsize] at hsc
    subst hsc
    obtain ⟨sf, outs, last, h1, h2, h3, h4, h5⟩ :=
      fresh_pass_calls (mb.toNat * 1048576) (by omega)
    have hk : (mb.toNat * 1048576 - 1) / CHUNK_SIZE = mb.toNat := by
      rw [CHUNK_SIZE_eq]; omega
    rw [hk] at h1 h2 h3 h5
    refine ⟨by show mb.toNat * 1048576 = _; omega, sf, outs, last, h1, h2, h3, h4, ?_⟩
    rw [h5, CHUNK_SIZE_eq]
    congr 1
    omega
  · intro avail sc hcon
    have hsc := construct_ok_eq avail 65536 sc hcon
    have hsize : (((65536 : Int) * (CHECK_PER_MB : Int)) % 2 ^ 64).toNat = 68719476736 := by
      decide
    rw [hsize] at hsc
    subst hsc
    obtain ⟨sf, outs, last, h1, h2, h3, -, -⟩ := fresh_pass_calls 68719476736 (by omega)
    have hk : (68719476736 - 1) / CHUNK_SIZE + 1 = 65536 + 2 := by decide
    rw [hk] at h1 h2 h3
    exact ⟨sf, outs, h1, h2 (65536 + 1) (by omega), h3, by omega⟩

/-- Witness of C18: a filled buffer of three bytes takes one call; the checker for one
megabyte takes two. -/
theorem calls_per_pass_witness :
    (⟨3, [9, 9, 9], 7, 1, true⟩ : RAMcheck).wf ∧
    fill ⟨3, [9, 9, 9], 7, 1, true⟩ = .ok ⟨3, [0x55, 0x55, 0xaa], 0, 0, false⟩ ∧
    (∃ sf outs,
      run_pass CHUNK_SIZE 1 ⟨3, [0x55, 0x55, 0xaa], 0, 0, false⟩ = .ok (some (sf, outs)) ∧
      run_pass CHUNK_SIZE 0 ⟨3, [0x55, 0x55, 0xaa], 0, 0, false⟩ = .ok none ∧
      outs.length = 1) ∧
    construct (2 ^ 30) 1 = .ok ⟨1048576, healthy 1048576, 0, 0, false⟩ ∧
    ∃ sf outs,
      run_pass CHUNK_SIZE 2 ⟨1048576, healthy 1048576, 0, 0, false⟩ = .ok (some (sf, outs)) ∧
      run_pass CHUNK_SIZE 1 ⟨1048576, healthy 1048576, 0, 0, false⟩ = .ok none ∧
      outs.length = 2 := by
  obtain ⟨⟨sf, outs, h1, h2, h3⟩, hmb, _⟩ :=
    calls_per_pass ⟨3, [9, 9, 9], 7, 1, true⟩ ⟨3, [0x55, 0x55, 0xaa], 0, 0, false⟩
      (by decide) (by decide) (by decide)
  obtain ⟨_, sf2, outs2, _, g1, g2, g3, _⟩ :=
    hmb (2 ^ 30) 1 _ (by decide) (by decide) construct_one_megabyte
  exact ⟨by decide, by decide, ⟨sf, outs, h1 1 (by decide), h2 0 (by decide), h3⟩,
    construct_one_megabyte, sf2, outs2, g1 2 (by decide), g2 1 (by decide), g3⟩

/-! ## A reachable state with a corrupted byte -/

theorem steps_concat : ∀ (acts : List Action) (t : Tracked) (a : Action),
    t.steps (acts ++ [a]) =
      match t.steps acts with
      | .error e => .error e
      | .ok t1 => t1.step a := by
  intro acts
  induction acts with
  | nil =>
    intro t a
    simp only [List.nil_append, Tracked.steps]
    cases t.step a <;> rfl
  | cons b acts ih =>
    intro t a
    simp only [List.cons_append, Tracked.steps]
    cases t.step b with
    | error e => rfl
    | ok t2 => exact ih t2 a

theorem reachable_corrupt (t : Tracked) (h : Reachable t) (k v : Nat) :
    Reachable ⟨corrupt t.s k v, t.reported⟩ := by
  obtain ⟨avail, mb, s0, acts, hc, hs⟩ := h
  refine ⟨avail, mb, s0, acts ++ [Action.corrupt k v], hc, ?_⟩
  rw [steps_concat, hs]
  rfl

/-- A freshly constructed checker with more than one chunk, after its first
`check_chunk()` call and a fault in byte `k`. -/
theorem reachable_corrupted (avail : Nat) (mb : Int) (n : Nat)
    (hcon : construct avail mb = .ok ⟨n, healthy n, 0, 0, false⟩) (hn : CHUNK_SIZE < n)
    (k v : Nat) :
    Reachable ⟨corrupt ⟨n, healthy n, CHUNK_SIZE, 0, false⟩ k v, []⟩ :=
  reachable_corrupt ⟨⟨n, healthy n, CHUNK_SIZE, 0, false⟩, []⟩
    (reachable_after_first_call avail mb n hcon hn) k v

theorem corrupt_bytes (n k v : Nat) (hv : v < 256) (c i : Nat) (f : Bool) :
    ∀ x ∈ (corrupt ⟨n, healthy n, c, i, f⟩ k v).buffer, x < 256 := by
  intro x hx
  simp only [corrupt] at hx
  rcases List.mem_or_eq_of_mem_set hx with h | h
  · exact healthy_bytes n x h
  · omega

/-- Witness of C11: the checker for one megabyte after its first call, with byte
1048570 (pattern byte 10, `0xff`) cleared to 0. -/
theorem mismatch_report_contents_witness :
    Reachable ⟨corrupt ⟨1048576, healthy 1048576, CHUNK_SIZE, 0, false⟩ 1048570 0, []⟩ ∧
    (∀ x ∈ (corrupt ⟨1048576, healthy 1048576, CHUNK_SIZE, 0, false⟩ 1048570 0).buffer,
      x < 256) ∧
    ∃ s1 out,
      check_chunk (corrupt ⟨1048576, healthy 1048576, CHUNK_SIZE, 0, false⟩ 1048570 0) =
        .ok (s1, out) ∧
      ∀ b should had flip, Event.mismatch b should had flip ∈ out →
        flip = had ^^^ should ∧ 1 ≤ flip ∧ flip ≤ 255 ∧ should ^^^ flip = had := by
  have key : ∀ n : Nat,
      Reachable ⟨corrupt ⟨n, healthy n, CHUNK_SIZE, 0, false⟩ 1048570 0, []⟩ →
      ∃ s1 out,
        check_chunk (corrupt ⟨n, healthy n, CHUNK_SIZE, 0, false⟩ 1048570 0) = .ok (s1, out) ∧
        ∀ b should had flip, Event.mismatch b should had flip ∈ out →
          flip = had ^^^ should ∧ 1 ≤ flip ∧ flip ≤ 255 ∧ should ^^^ flip = had := by
    intro n hn
    obtain ⟨s1, out, h1, h2⟩ :=
      mismatch_report_contents ⟨corrupt ⟨n, healthy n, CHUNK_SIZE, 0, false⟩ 1048570 0, []⟩ hn
        (corrupt_bytes n 1048570 0 (by decide) CHUNK_SIZE 0 false)
    exact ⟨s1, out, h1, fun b should had flip hm => (h2 b should had flip hm).2.2.2.2⟩
  have hr := reachable_corrupted (2 ^ 30) 1 1048576 construct_one_megabyte (by decide)
    1048570 0
  exact ⟨hr, corrupt_bytes 1048576 1048570 0 (by decide) CHUNK_SIZE 0 false, key 1048576 hr⟩

/-- Witness of C14: the checker for one megabyte after its first call, with byte
1048570 cleared to 0. -/
theorem every_mismatch_reported_witness :
    Reachable ⟨corrupt ⟨1048576, healthy 1048576, CHUNK_SIZE, 0, false⟩ 1048570 0, []⟩ ∧
    ∃ s1 out,
      check_chunk (corrupt ⟨1048576, healthy 1048576, CHUNK_SIZE, 0, false⟩ 1048570 0) =
        .ok (s1, out) := by
  have key : ∀ n : Nat,
      Reachable ⟨corrupt ⟨n, healthy n, CHUNK_SIZE, 0, false⟩ 1048570 0, []⟩ →
      ∃ s1 out,
        check_chunk (corrupt ⟨n, healthy n, CHUNK_SIZE, 0, false⟩ 1048570 0) = .ok (s1, out) := by
    intro n hn
    obtain ⟨_, out, s1, tail, _, h2, _⟩ :=
      every_mismatch_reported ⟨corrupt ⟨n, healthy n, CHUNK_SIZE, 0, false⟩ 1048570 0, []⟩ hn
    exact ⟨s1, out ++ tail, h2⟩
  have hr := reachable_corrupted (2 ^ 30) 1 1048576 construct_one_megabyte (by decide)
    1048570 0
  exact ⟨hr, key 1048576 hr⟩

/-- Witness of C16: the checker for one megabyte after its first call, with byte
1048570 cleared to 0. -/
theorem no_abort_in_bounds_witness :
    Reachable ⟨corrupt ⟨1048576, healthy 1048576, CHUNK_SIZE, 0, false⟩ 1048570 0, []⟩ ∧
    (∃ s1, fill (corrupt ⟨1048576, healthy 1048576, CHUNK_SIZE, 0, false⟩ 1048570 0) = .ok s1) ∧
    ∃ s1 out,
      check_chunk (corrupt ⟨1048576, healthy 1048576, CHUNK_SIZE, 0, false⟩ 1048570 0) =
        .ok (s1, out) := by
  have key : ∀ n : Nat,
      Reachable ⟨corrupt ⟨n, healthy n, CHUNK_SIZE, 0, false⟩ 1048570 0, []⟩ →
      (∃ s1, fill (corrupt ⟨n, healthy n, CHUNK_SIZE, 0, false⟩ 1048570 0) = .ok s1) ∧
      ∃ s1 out,
        check_chunk (corrupt ⟨n, healthy n, CHUNK_SIZE, 0, false⟩ 1048570 0) = .ok (s1, out) := by
    intro n hn
    obtain ⟨h1, ⟨s1, out, h2, _⟩, _⟩ :=
      no_abort_in_bounds ⟨corrupt ⟨n, healthy n, CHUNK_SIZE, 0, false⟩ 1048570 0, []⟩ hn
    exact ⟨h1, s1, out, h2⟩
  have hr := reachable_corrupted (2 ^ 30) 1 1048576 construct_one_megabyte (by decide)
    1048570 0
  exact ⟨hr, key 1048576 hr⟩

end RAMcheck
